import Mathlib

/-!
Verification of the strapi-mcp-server core (`mcp-server.mjs`).

The file shallowly embeds the JavaScript source: JSON-like runtime values
become the inductive type `JVal`; the pure helpers (`buildQueryString`,
`JSON.stringify`, `encodeURIComponent`) become Lean functions; the
effectful pieces (`fetch`, the per-tool executors, `JSON.parse`) are
passed in as explicit oracles, and exceptions become `Except String`
values carrying the error message.  The reference bracket-notation
decoder used to state the round-trip law of the query serializer is
defined at the end, together with the well-formedness predicate under
which the round trip holds.
-/

set_option linter.unusedVariables false

namespace StrapiMcp

/-! ### JavaScript value model -/

/-- A JavaScript runtime value as far as the server manipulates them:
`undefined`, `null`, booleans, (integral) numbers, strings, arrays and
plain objects with ordered string keys. -/
inductive JVal where
  | null
  | undef
  | bool (b : Bool)
  | num (n : Int)
  | str (s : String)
  | arr (elems : List JVal)
  | obj (fields : List (String × JVal))

/-- JavaScript truthiness of a value. -/
def jsTruthy : JVal → Bool
  | .null => false
  | .undef => false
  | .bool b => b
  | .num n => n ≠ 0
  | .str s => s ≠ ""
  | .arr _ => true
  | .obj _ => true

/-- Is the value `undefined`? (the `!== undefined` checks of the source). -/
def isUndef : JVal → Bool
  | .undef => true
  | _ => false

/-- Is the value `null` or `undefined` (the receivers on which property
access and destructuring throw a `TypeError`)? -/
def isNullish : JVal → Bool
  | .null => true
  | .undef => true
  | _ => false

mutual

/-- JavaScript string coercion `String(v)`, as used by template literals:
objects display as `[object Object]`, arrays join their elements with
commas (with `null`/`undefined` elements displaying as empty). -/
def jsDisplay : JVal → String
  | .undef => "undefined"
  | .null => "null"
  | .bool true => "true"
  | .bool false => "false"
  | .num n => toString n
  | .str s => s
  | .obj _ => "[object Object]"
  | .arr xs => jsDisplayElems xs

/-- Elements of `Array.prototype.toString`, joined with commas. -/
def jsDisplayElems : List JVal → String
  | [] => ""
  | [v] =>
    (match v with
     | .null => ""
     | .undef => ""
     | .bool b => jsDisplay (.bool b)
     | .num n => jsDisplay (.num n)
     | .str s => jsDisplay (.str s)
     | .arr xs => jsDisplay (.arr xs)
     | .obj f => jsDisplay (.obj f))
  | v :: rest =>
    (match v with
     | .null => ""
     | .undef => ""
     | .bool b => jsDisplay (.bool b)
     | .num n => jsDisplay (.num n)
     | .str s => jsDisplay (.str s)
     | .arr xs => jsDisplay (.arr xs)
     | .obj f => jsDisplay (.obj f)) ++ "," ++ jsDisplayElems rest

end

/-- Property access `v[key]` on a non-nullish receiver: a field lookup on
objects (first binding wins; the objects the server builds and the ones
`JSON.parse` yields have distinct keys), `undefined` everywhere else. -/
def jsGet : JVal → String → JVal
  | .obj fields, key =>
    match fields.lookup key with
    | some v => v
    | none => .undef
  | _, _ => (.undef)

/-- Property access `v[key]` as the runtime performs it: a `TypeError`
on `null`/`undefined` receivers, otherwise `jsGet`. -/
def jsGetE (v : JVal) (key : String) : Except String JVal :=
  match v with
  | .null => .error ("Cannot read properties of null (reading '" ++ key ++ "')")
  | .undef => .error ("Cannot read properties of undefined (reading '" ++ key ++ "')")
  | v => .ok (jsGet v key)

/-- Does a JavaScript value `===` a given string literal (the `switch` /
`if` comparisons of the dispatcher)? -/
def jsStrEq (v : JVal) (lit : String) : Bool :=
  match v with
  | .str s => s = lit
  | _ => false

/-- String coercion of the scalar ending in the query serializer's
`encodeURIComponent(value)` call. -/
def scalarCoerce : JVal → String
  | .null => "null"
  | .undef => "undefined"
  | .bool true => "true"
  | .bool false => "false"
  | .num n => toString n
  | .str s => s
  | .arr xs => jsDisplayElems xs
  | .obj _ => "[object Object]"

/-! ### `encodeURIComponent` -/

/-- The characters `encodeURIComponent` leaves unescaped: ASCII
alphanumerics and `- _ . ! ~ * ' ( )`. -/
def uriUnreserved (c : Char) : Bool :=
  (('A' ≤ c && c ≤ 'Z') || ('a' ≤ c && c ≤ 'z') || ('0' ≤ c && c ≤ '9')
    || c = '-' || c = '_' || c = '.' || c = '!' || c = '~' || c = '*'
    || c = '\'' || c = '(' || c = ')')

/-- UTF-8 bytes of a code point. -/
def utf8Bytes (v : Nat) : List Nat :=
  if v < 128 then [v]
  else if v < 2048 then [192 + v / 64, 128 + v % 64]
  else if v < 65536 then [224 + v / 4096, 128 + (v / 64) % 64, 128 + v % 64]
  else [240 + v / 262144, 128 + (v / 4096) % 64, 128 + (v / 64) % 64, 128 + v % 64]

/-- Uppercase hexadecimal digit, as `encodeURIComponent` produces. -/
def hexDigit (n : Nat) : Char :=
  if n < 10 then Char.ofNat (48 + n) else Char.ofNat (55 + n)

/-- Percent-escape of one character (one `%XX` triple per UTF-8 byte). -/
def percentEncodeChar (c : Char) : List Char :=
  if uriUnreserved c then [c]
  else (utf8Bytes c.toNat).flatMap (fun b => ['%', hexDigit (b / 16), hexDigit (b % 16)])

/-- `encodeURIComponent` on a character list. -/
def percentEncodeL (l : List Char) : List Char :=
  l.flatMap percentEncodeChar

/-- The `encodeURIComponent` builtin. -/
def encodeURIComponent (s : String) : String :=
  String.mk (percentEncodeL s.data)

/-! ### `buildQueryString` -/

/-- `[p1, p2, ...].join('&')`. -/
def joinAmp : List String → String
  | [] => ""
  | [p] => p
  | p :: rest => p ++ "&" ++ joinAmp rest

/-- The final `parts.filter(p => p !== '').join('&')` of `buildQueryString`. -/
def joinNonEmpty (parts : List String) : String :=
  joinAmp (parts.filter (fun p => p ≠ ""))

mutual

/-- `buildQueryString(params, prefix)` from `mcp-server.mjs`.  Dispatch on
the shape of `params`: a `for..in` loop over an object's entries or over an
array's index keys; `for..in` over `null` or a primitive reached through the
recursion iterates nothing, so those shapes serialize to the empty string
(the serializer is only ever applied to objects, and recursively to values
of `typeof 'object'`, i.e. objects, arrays and `null`). -/
def buildQueryString (params : JVal) (pfx : String := "") : String :=
  match params with
  | .obj fields => joinNonEmpty (buildQueryFields fields pfx)
  | .arr xs => joinNonEmpty (buildQueryIdxFields 0 xs pfx)
  | _ => ""

/-- The `for..in` loop body of `buildQueryString` over an object's entries:
`newPrefix` is `prefix[key]` (or bare `key` at the top), non-array objects
recurse, arrays run the `forEach` branch, scalars other than `undefined`
emit `encodeURIComponent(newPrefix)=encodeURIComponent(value)`. -/
def buildQueryFields : List (String × JVal) → String → List String
  | [], _ => []
  | (key, value) :: rest, pfx =>
    (let newPfx := if pfx ≠ "" then pfx ++ "[" ++ key ++ "]" else key
     match value with
     | .obj f => [buildQueryString (.obj f) newPfx]
     | .arr xs => buildQueryArrayElems xs 0 newPfx
     | .undef => []
     | .null => [encodeURIComponent newPfx ++ "=" ++ encodeURIComponent (scalarCoerce .null)]
     | .bool b => [encodeURIComponent newPfx ++ "=" ++ encodeURIComponent (scalarCoerce (.bool b))]
     | .num n => [encodeURIComponent newPfx ++ "=" ++ encodeURIComponent (scalarCoerce (.num n))]
     | .str s => [encodeURIComponent newPfx ++ "=" ++ encodeURIComponent (scalarCoerce (.str s))])
    ++ buildQueryFields rest pfx

/-- The same `for..in` loop body when `params` is an array: its own
enumerable keys are the decimal index strings `"0"`, `"1"`, ... -/
def buildQueryIdxFields : Nat → List JVal → String → List String
  | _, [], _ => []
  | i, value :: rest, pfx =>
    (let newPfx := if pfx ≠ "" then pfx ++ "[" ++ toString i ++ "]" else toString i
     match value with
     | .obj f => [buildQueryString (.obj f) newPfx]
     | .arr xs => buildQueryArrayElems xs 0 newPfx
     | .undef => []
     | .null => [encodeURIComponent newPfx ++ "=" ++ encodeURIComponent (scalarCoerce .null)]
     | .bool b => [encodeURIComponent newPfx ++ "=" ++ encodeURIComponent (scalarCoerce (.bool b))]
     | .num n => [encodeURIComponent newPfx ++ "=" ++ encodeURIComponent (scalarCoerce (.num n))]
     | .str s => [encodeURIComponent newPfx ++ "=" ++ encodeURIComponent (scalarCoerce (.str s))])
    ++ buildQueryIdxFields (i + 1) rest pfx

/-- The `value.forEach((val, index) => ...)` branch: elements of
`typeof 'object'` (objects, arrays, `null`) recurse with `newPrefix[index]`;
all other elements (including `undefined`) emit
`encodeURIComponent(newPrefix[index])=encodeURIComponent(val)`. -/
def buildQueryArrayElems : List JVal → Nat → String → List String
  | [], _, _ => []
  | val :: rest, index, newPfx =>
    (match val with
     | .obj f => [buildQueryString (.obj f) (newPfx ++ "[" ++ toString index ++ "]")]
     | .arr xs => [buildQueryString (.arr xs) (newPfx ++ "[" ++ toString index ++ "]")]
     | .null => [buildQueryString .null (newPfx ++ "[" ++ toString index ++ "]")]
     | .undef => [encodeURIComponent (newPfx ++ "[" ++ toString index ++ "]") ++ "="
                    ++ encodeURIComponent (scalarCoerce .undef)]
     | .bool b => [encodeURIComponent (newPfx ++ "[" ++ toString index ++ "]") ++ "="
                    ++ encodeURIComponent (scalarCoerce (.bool b))]
     | .num n => [encodeURIComponent (newPfx ++ "[" ++ toString index ++ "]") ++ "="
                    ++ encodeURIComponent (scalarCoerce (.num n))]
     | .str s => [encodeURIComponent (newPfx ++ "[" ++ toString index ++ "]") ++ "="
                    ++ encodeURIComponent (scalarCoerce (.str s))])
    ++ buildQueryArrayElems rest (index + 1) newPfx

end

/-! ### `JSON.stringify` -/

/-- Lowercase hexadecimal digit (as in `\u00xx` escapes). -/
def hexDigitLower (n : Nat) : Char :=
  if n < 10 then Char.ofNat (48 + n) else Char.ofNat (87 + n)

/-- The escape `JSON.stringify` applies inside string literals. -/
def escapeJsonChar (c : Char) : List Char :=
  if c = '"' then ['\\', '"']
  else if c = '\\' then ['\\', '\\']
  else if c.toNat = 8 then ['\\', 'b']
  else if c.toNat = 9 then ['\\', 't']
  else if c.toNat = 10 then ['\\', 'n']
  else if c.toNat = 12 then ['\\', 'f']
  else if c.toNat = 13 then ['\\', 'r']
  else if c.toNat < 32 then ['\\', 'u', '0', '0', hexDigitLower (c.toNat / 16), hexDigitLower (c.toNat % 16)]
  else [c]

/-- A JSON string literal. -/
def quoteJson (s : String) : String :=
  "\"" ++ String.mk (s.data.flatMap escapeJsonChar) ++ "\""

/-- `[x, y, ...].join(',')`. -/
def joinComma : List String → String
  | [] => ""
  | [x] => x
  | x :: rest => x ++ "," ++ joinComma rest

/-- Join with `,\n` (the separator of indented `JSON.stringify`). -/
def joinCommaNl : List String → String
  | [] => ""
  | [x] => x
  | x :: rest => x ++ ",\n" ++ joinCommaNl rest

mutual

/-- Compact `JSON.stringify(v)`.  `undefined` fields are omitted and
`undefined` array elements become `null`; a top-level `undefined` is not a
string in JavaScript and only ever reaches a template literal here, where it
displays as `undefined`. -/
def jsonStringify : JVal → String
  | .null => "null"
  | .undef => "undefined"
  | .bool true => "true"
  | .bool false => "false"
  | .num n => toString n
  | .str s => quoteJson s
  | .arr xs => "[" ++ joinComma (jsonStringifyElems xs) ++ "]"
  | .obj fields => "\x7b" ++ joinComma (jsonStringifyFields fields) ++ "\x7d"

def jsonStringifyElems : List JVal → List String
  | [] => []
  | v :: rest =>
    (match v with
     | .undef => "null"
     | .null => jsonStringify .null
     | .bool b => jsonStringify (.bool b)
     | .num n => jsonStringify (.num n)
     | .str s => jsonStringify (.str s)
     | .arr xs => jsonStringify (.arr xs)
     | .obj f => jsonStringify (.obj f)) :: jsonStringifyElems rest

def jsonStringifyFields : List (String × JVal) → List String
  | [] => []
  | (k, v) :: rest =>
    (match v with
     | .undef => []
     | .null => [quoteJson k ++ ":" ++ jsonStringify .null]
     | .bool b => [quoteJson k ++ ":" ++ jsonStringify (.bool b)]
     | .num n => [quoteJson k ++ ":" ++ jsonStringify (.num n)]
     | .str s => [quoteJson k ++ ":" ++ jsonStringify (.str s)]
     | .arr xs => [quoteJson k ++ ":" ++ jsonStringify (.arr xs)]
     | .obj f => [quoteJson k ++ ":" ++ jsonStringify (.obj f)])
    ++ jsonStringifyFields rest

end

mutual

/-- `JSON.stringify(v, null, 2)`: the indented form the dispatcher uses for
tool results.  `ind` is the indentation of the surrounding context. -/
def jsonStringifyPretty (v : JVal) (ind : String := "") : String :=
  match v with
  | .null => "null"
  | .undef => "undefined"
  | .bool true => "true"
  | .bool false => "false"
  | .num n => toString n
  | .str s => quoteJson s
  | .arr [] => "[]"
  | .arr xs => "[\n" ++ joinCommaNl (jsonStringifyPrettyElems xs (ind ++ "  ")) ++ "\n" ++ ind ++ "]"
  | .obj fields =>
    match jsonStringifyPrettyFields fields (ind ++ "  ") with
    | [] => "\x7b\x7d"
    | rendered => "\x7b\n" ++ joinCommaNl rendered ++ "\n" ++ ind ++ "\x7d"

def jsonStringifyPrettyElems : List JVal → String → List String
  | [], _ => []
  | v :: rest, ind =>
    (match v with
     | .undef => ind ++ "null"
     | .null => ind ++ jsonStringifyPretty .null ind
     | .bool b => ind ++ jsonStringifyPretty (.bool b) ind
     | .num n => ind ++ jsonStringifyPretty (.num n) ind
     | .str s => ind ++ jsonStringifyPretty (.str s) ind
     | .arr xs => ind ++ jsonStringifyPretty (.arr xs) ind
     | .obj f => ind ++ jsonStringifyPretty (.obj f) ind) :: jsonStringifyPrettyElems rest ind

def jsonStringifyPrettyFields : List (String × JVal) → String → List String
  | [], _ => []
  | (k, v) :: rest, ind =>
    (match v with
     | .undef => []
     | .null => [ind ++ quoteJson k ++ ": " ++ jsonStringifyPretty .null ind]
     | .bool b => [ind ++ quoteJson k ++ ": " ++ jsonStringifyPretty (.bool b) ind]
     | .num n => [ind ++ quoteJson k ++ ": " ++ jsonStringifyPretty (.num n) ind]
     | .str s => [ind ++ quoteJson k ++ ": " ++ jsonStringifyPretty (.str s) ind]
     | .arr xs => [ind ++ quoteJson k ++ ": " ++ jsonStringifyPretty (.arr xs) ind]
     | .obj f => [ind ++ quoteJson k ++ ": " ++ jsonStringifyPretty (.obj f) ind])
    ++ jsonStringifyPrettyFields rest ind

end

/-! ### `strapiRequest` (the Backend Client)

`fetch` and `JSON.parse` are external effects; the model receives the
outcome of the `fetch` (a thrown network error, or a response with a
status and a body text) and the `JSON.parse` function as oracles. -/

/-- The observable part of a `fetch` `Response`: its status code and the
text of its body. -/
structure HttpResponse where
  status : Nat
  body : String

/-- `strapiRequest` after the URL has been built: decode the body as JSON,
falling back to `\x7b raw: text \x7d` when decoding fails; throw
`Strapi API Error (status): body` when the status is not in the success
range 200..299 (`response.ok`); rethrow a network failure of the `fetch`
itself.  The URL construction and headers do not affect the returned
value and are not modelled. -/
def strapiRequest (parse : String → Except String JVal)
    (fetched : Except String HttpResponse) : Except String JVal :=
  match fetched with
  | .error e => .error e
  | .ok response =>
    let data :=
      match parse response.body with
      | .ok d => d
      | .error _ => .obj [("raw", .str response.body)]
    if 200 ≤ response.status && response.status < 300 then .ok data
    else .error ("Strapi API Error (" ++ toString response.status ++ "): " ++ jsonStringify data)

/-! ### `replaceMediaUrls` -/

/-- Substring test (`String.prototype.includes`). -/
def listContains (s sub : List Char) : Bool :=
  sub.isPrefixOf s ||
    (match s with
     | [] => false
     | _ :: t => listContains t sub)

/-- `s.includes(sub)`. -/
def strContains (s sub : String) : Bool :=
  listContains s.data sub.data

/-- `String.prototype.replace` with a string pattern replaces the first
occurrence only. -/
def replaceFirstL (s old new : List Char) : List Char :=
  if old.isPrefixOf s then new ++ s.drop old.length
  else
    match s with
    | [] => []
    | c :: t => c :: replaceFirstL t old new

/-- `s.replace(old, new)` (first occurrence). -/
def replaceFirst (s old new : String) : String :=
  String.mk (replaceFirstL s.data old.data new.data)

/-- An oracle for the outcomes of `strapiRequest(endpoint, method, body)`
calls made by an executor: either the decoded body or a thrown message. -/
abbrev ReqOracle := String → String → Option JVal → Except String JVal

/-- The listing endpoint of page `page` in `replaceMediaUrls`. -/
def mediaPageEndpoint (page : Nat) : String :=
  "/api/upload/files?pagination[page]=" ++ toString page ++ "&pagination[pageSize]=100"

/-- `Array.isArray(data) ? data : (data.data || [])`, then the implicit
iteration requirement of `for (const file of files)`: property access on a
nullish `data` throws, and a truthy non-iterable `data.data` throws. -/
def mediaFiles (data : JVal) : Except String (List JVal) :=
  match data with
  | .arr xs => .ok xs
  | d =>
    match jsGetE d "data" with
    | .error e => .error e
    | .ok dd =>
      let v := if jsTruthy dd then dd else .arr []
      match v with
      | .arr xs => .ok xs
      | .str s => .ok (s.data.map (fun c => .str (String.mk [c])))
      | w => .error (jsDisplay w ++ " is not iterable")

/-- The `for (const file of files)` body of `replaceMediaUrls`: skip files
whose `url` is falsy or does not contain `oldBaseUrl`; otherwise issue the
update call and count it.  Any thrown error (property access on a nullish
file, a non-string truthy `url`, or a failing update request) propagates:
the source has no try/catch here. -/
def replaceMediaFiles (req : ReqOracle) (oldBaseUrl newBaseUrl : String) :
    List JVal → Nat → Except String Nat
  | [], totalUpdated => .ok totalUpdated
  | file :: rest, totalUpdated =>
    match jsGetE file "url" with
    | .error e => .error e
    | .ok url =>
      if jsTruthy url then
        match url with
        | .str s =>
          if strContains s oldBaseUrl then
            let newUrl := replaceFirst s oldBaseUrl newBaseUrl
            match jsGetE file "id" with
            | .error e => .error e
            | .ok idv =>
              match req ("/api/upload/files/" ++ jsDisplay idv ++ "?action=update") "POST"
                  (some (.obj [("fileInfo", .obj [("url", .str newUrl)]), ("url", .str newUrl)])) with
              | .error e => .error e
              | .ok _ => replaceMediaFiles req oldBaseUrl newBaseUrl rest (totalUpdated + 1)
          else replaceMediaFiles req oldBaseUrl newBaseUrl rest totalUpdated
        | _ => .error "file.url.includes is not a function"
      else replaceMediaFiles req oldBaseUrl newBaseUrl rest totalUpdated

/-- The `while (true)` pagination loop of `replaceMediaUrls`.  The source
loop has no bound; `fuel` bounds the number of iterations of the model,
`none` meaning the source loop would still be running after that many
pages.  A page-fetch error or a per-file error propagates (`some (.error _)`);
the loop breaks when a page is empty or shorter than the page size. -/
def replaceMediaUrlsLoop (req : ReqOracle) (oldBaseUrl newBaseUrl : String) :
    Nat → Nat → Nat → Option (Except String JVal)
  | _, _, 0 => none
  | page, totalUpdated, fuel + 1 =>
    match req (mediaPageEndpoint page) "GET" none with
    | .error e => some (.error e)
    | .ok data =>
      match mediaFiles data with
      | .error e => some (.error e)
      | .ok files =>
        if files.length = 0 then some (.ok (.obj [("totalUpdated", .num totalUpdated)]))
        else
          match replaceMediaFiles req oldBaseUrl newBaseUrl files totalUpdated with
          | .error e => some (.error e)
          | .ok total =>
            if files.length < 100 then some (.ok (.obj [("totalUpdated", .num total)]))
            else replaceMediaUrlsLoop req oldBaseUrl newBaseUrl (page + 1) total fuel

/-- `replaceMediaUrls(oldBaseUrl, newBaseUrl)`: page and total start at 1
and 0. -/
def replaceMediaUrls (req : ReqOracle) (oldBaseUrl newBaseUrl : String)
    (fuel : Nat) : Option (Except String JVal) :=
  replaceMediaUrlsLoop req oldBaseUrl newBaseUrl 1 0 fuel

/-! ### Tool registry -/

/-- `\x7b type: 'string' \x7d`. -/
def strProp : JVal := .obj [("type", .str "string")]

/-- `\x7b type: 'object' \x7d`. -/
def objProp : JVal := .obj [("type", .str "object")]

/-- An input schema with the given properties and required names. -/
def inputSchema (props : List (String × JVal)) (required : List String := []) : JVal :=
  if required.isEmpty then
    .obj [("type", .str "object"), ("properties", .obj props)]
  else
    .obj [("type", .str "object"), ("properties", .obj props),
          ("required", .arr (required.map JVal.str))]

/-- One tool descriptor. -/
def toolDescriptor (name description : String) (schema : JVal) : JVal :=
  .obj [("name", .str name), ("description", .str description), ("inputSchema", schema)]

/-- The `TOOLS` array of the Plugin Developer Edition server. -/
def TOOLS : List JVal :=
  [toolDescriptor "strapi_whoami" "Check connection." (inputSchema []),
   toolDescriptor "strapi_list_apis" "List Content Types." (inputSchema []),
   toolDescriptor "strapi_get_schema" "Get schema for API."
     (inputSchema [("apiName", strProp)] ["apiName"]),
   toolDescriptor "strapi_list_components" "List shared components." (inputSchema []),
   toolDescriptor "strapi_query" "Advanced query."
     (inputSchema [("pluralName", strProp), ("queryParams", objProp)] ["pluralName"]),
   toolDescriptor "strapi_get_entry" "Get entry by ID."
     (inputSchema [("pluralName", strProp), ("id", strProp), ("populate", strProp)]
       ["pluralName", "id"]),
   toolDescriptor "strapi_get_page_by_slug" "Get entry by slug."
     (inputSchema [("pluralName", strProp), ("slug", strProp)] ["pluralName", "slug"]),
   toolDescriptor "strapi_get_single" "Get Single Type content."
     (inputSchema [("singularName", strProp), ("populate", strProp)] ["singularName"]),
   toolDescriptor "strapi_create_entry" "Create entry."
     (inputSchema [("pluralName", strProp), ("data", objProp)] ["pluralName", "data"]),
   toolDescriptor "strapi_update_entry" "Update entry."
     (inputSchema [("name", strProp), ("id", strProp), ("data", objProp)] ["name", "data"]),
   toolDescriptor "strapi_delete_entry" "Delete entry."
     (inputSchema [("pluralName", strProp), ("id", strProp)] ["pluralName", "id"]),
   toolDescriptor "strapi_list_media" "List media."
     (inputSchema [("queryParams", objProp)]),
   toolDescriptor "strapi_replace_media_urls" "Replace media URLs globally."
     (inputSchema [("oldBaseUrl", strProp), ("newBaseUrl", strProp)] ["oldBaseUrl", "newBaseUrl"]),
   toolDescriptor "strapi_list_plugins" "List all custom plugins in src/plugins." (inputSchema []),
   toolDescriptor "strapi_get_plugin_structure" "Explore the internal file structure of a plugin."
     (inputSchema [("pluginName", strProp)] ["pluginName"]),
   toolDescriptor "strapi_get_design_system_info"
     "Check for @strapi/design-system and list available modules." (inputSchema [])]

/-- The tool names the `switch (name)` of the dispatcher has a case for,
in source order. -/
def toolNames : List String :=
  ["strapi_whoami", "strapi_list_apis", "strapi_get_schema", "strapi_list_components",
   "strapi_query", "strapi_get_entry", "strapi_get_page_by_slug", "strapi_get_single",
   "strapi_create_entry", "strapi_update_entry", "strapi_delete_entry", "strapi_list_media",
   "strapi_replace_media_urls", "strapi_list_plugins", "strapi_get_plugin_structure",
   "strapi_get_design_system_info"]

/-! ### The dispatcher (`handleRequest`)

Each `case` of the `switch` runs its executor (a filesystem read or one or
more backend calls); the oracle `exec` maps a tool name and its `arguments`
to the outcome of running that case body: the value of `result`, or the
message of the exception it threw. -/

/-- The `switch (name)` statement: a matching case runs its executor; the
`default` case throws `Tool not found: name` (a non-string `name` matches
no case and is coerced into the message by the template literal). -/
def runToolSwitch (exec : String → JVal → Except String JVal) (name args : JVal) :
    Except String JVal :=
  match name with
  | .str s => if toolNames.contains s then exec s args else .error ("Tool not found: " ++ s)
  | v => .error ("Tool not found: " ++ jsDisplay v)

/-- The result of the `initialize` handshake. -/
def initResult : JVal :=
  .obj [("protocolVersion", .str "2024-11-05"),
        ("capabilities", .obj [("tools", .obj [("listChanged", .bool false)])]),
        ("serverInfo", .obj [("name", .str "strapi-mcp-dev-edition"), ("version", .str "1.5.0")])]

/-- The result of `tools/list`. -/
def toolsListResult : JVal := .obj [("tools", .arr TOOLS)]

/-- The tool-call envelope of a returning executor:
`\x7b content: [\x7b type: 'text', text: JSON.stringify(result, null, 2) \x7d] \x7d`. -/
def toolCallSuccess (result : JVal) : JVal :=
  .obj [("content", .arr [.obj [("type", .str "text"),
                                ("text", .str (jsonStringifyPretty result ""))]])]

/-- The tool-call envelope of a throwing executor:
`\x7b content: [\x7b type: 'text', text: 'Error: ' + message \x7d], isError: true \x7d`. -/
def toolCallFailure (message : String) : JVal :=
  .obj [("content", .arr [.obj [("type", .str "text"),
                                ("text", .str ("Error: " ++ message))]]),
        ("isError", .bool true)]

/-- The `TypeError` message of destructuring a nullish value. -/
def destructureError (prop target : String) (v : JVal) : String :=
  "Cannot destructure property '" ++ prop ++ "' of '" ++ target ++ "' as it is "
    ++ jsDisplay v ++ "."

/-- `handleRequest(request)`.  `.error m` is an exception with message `m`
escaping to the transport loop; `.ok v` is a returned value.  Note that
`const \x7b name, arguments: args \x7d = params` runs *before* the
try/catch, while the whole `switch`, including its throwing `default`
case, runs *inside* it. -/
def handleRequest (exec : String → JVal → Except String JVal) (request : JVal) :
    Except String JVal :=
  if isNullish request then .error (destructureError "method" "request" request)
  else
    let method := jsGet request "method"
    let params := jsGet request "params"
    if jsStrEq method "initialize" then .ok initResult
    else if jsStrEq method "notifications/initialized" then .ok .null
    else if jsStrEq method "tools/list" then .ok toolsListResult
    else if jsStrEq method "tools/call" then
      if isNullish params then .error (destructureError "name" "params" params)
      else
        let name := jsGet params "name"
        let args := jsGet params "arguments"
        match runToolSwitch exec name args with
        | .ok result => .ok (toolCallSuccess result)
        | .error e => .ok (toolCallFailure e)
    else .error ("Method not found: " ++ jsDisplay method)

/-! ### The transport loop (`rl.on('line', ...)`) -/

/-- A line written to stdout: a result envelope or an error envelope
(rendered by `JSON.stringify`; the model keeps the structure). -/
inductive Outgoing where
  | result (id : JVal) (res : JVal)
  | rpcError (id : JVal) (code : Int) (message : String)

/-- The observable effects of handling one input line. -/
structure LineEffects where
  outputs : List Outgoing
  logs : List String

/-- The test `!line.trim()`: the line is blank, i.e. trimming leaves the
empty string, i.e. every character is whitespace. -/
def isBlankLine (line : String) : Bool :=
  line.data.all (fun c => c.isWhitespace)

/-- The `rl.on('line')` handler for one line, with `JSON.parse` and the
executor outcomes as oracles.  Blank lines are skipped; a line that fails
to parse is logged and produces no output; otherwise the inner try/catch
around `handleRequest` and the `request.id !== undefined` guards decide
between a result envelope, an error envelope (code `-32603`) and silence;
an exception escaping the inner catch (reading `id` off a nullish request)
reaches the outer catch and is logged. -/
def processLine (exec : String → JVal → Except String JVal)
    (parse : String → Except String JVal) (line : String) : LineEffects :=
  if isBlankLine line then ⟨[], []⟩
  else
    match parse line with
    | .error e => ⟨[], ["Failed to parse request: " ++ e]⟩
    | .ok request =>
      match (handleRequest exec request).bind (fun result =>
          (jsGetE request "id").map (fun idv =>
            if isUndef idv then [] else [Outgoing.result idv result])) with
      | .ok outs => ⟨outs, []⟩
      | .error msg =>
        match jsGetE request "id" with
        | .ok idv => ⟨if isUndef idv then [] else [.rpcError idv (-32603) msg], []⟩
        | .error e2 => ⟨[], ["Failed to parse request: " ++ e2]⟩

/-- The whole loop over a list of input lines: per-line effects,
concatenated; nothing a line does stops the loop. -/
def processLines (exec : String → JVal → Except String JVal)
    (parse : String → Except String JVal) : List String → LineEffects
  | [] => ⟨[], []⟩
  | line :: rest =>
    let e1 := processLine exec parse line
    let e2 := processLines exec parse rest
    ⟨e1.outputs ++ e2.outputs, e1.logs ++ e2.logs⟩

/-! ### A reference bracket-notation decoder

The spec's round-trip law for the query serializer is stated against a
reference decoder: split the produced string on `&`, split each fragment
at the first `=`, percent-decode both halves, read the decoded key as a
bracket path `k1[k2][k3]`, and rebuild the nested value, recognising a
group whose keys are exactly `"0", "1", ...` as an array.  The decoder is
defined from the spec's description of the encoding, not from the source
(the source contains no decoder). -/

/-- Split a character list at every occurrence of `sep` (the pieces do not
contain `sep`; `n` separators yield `n + 1` pieces). -/
def splitOnChar (sep : Char) : List Char → List (List Char)
  | [] => [[]]
  | c :: rest =>
    if c = sep then [] :: splitOnChar sep rest
    else
      match splitOnChar sep rest with
      | g :: gs => (c :: g) :: gs
      | [] => [[c]]

/-- Value of a hexadecimal digit. -/
def hexVal (c : Char) : Option Nat :=
  if '0' ≤ c && c ≤ '9' then some (c.toNat - 48)
  else if 'A' ≤ c && c ≤ 'F' then some (c.toNat - 55)
  else if 'a' ≤ c && c ≤ 'f' then some (c.toNat - 87)
  else none

/-- Percent-decoding: each `%XX` triple with hexadecimal digits becomes the
character with that code; everything else passes through. -/
def percentDecodeL : List Char → List Char
  | [] => []
  | '%' :: h :: l :: rest =>
    (match hexVal h, hexVal l with
     | some a, some b => Char.ofNat (16 * a + b) :: percentDecodeL rest
     | _, _ => '%' :: percentDecodeL (h :: l :: rest))
  | c :: rest => c :: percentDecodeL rest

/-- Read a decoded key `k1[k2][k3]` as the segment path `[k1, k2, k3]`. -/
def parsePath (l : List Char) : List (List Char) :=
  match splitOnChar '[' l with
  | [] => []
  | h :: t => h :: t.map (fun seg => seg.takeWhile (fun c => c ≠ ']'))

/-- Decode one `&`-separated fragment into a (path, value) pair. -/
def fragToPair (frag : List Char) : List String × String :=
  let encKey := frag.takeWhile (fun c => c ≠ '=')
  let encVal := (frag.dropWhile (fun c => c ≠ '=')).drop 1
  ((parsePath (percentDecodeL encKey)).map (fun seg => String.mk seg),
   String.mk (percentDecodeL encVal))

/-- Group consecutive pairs sharing a first path segment, stripping that
segment (pairs with an exhausted path are dropped). -/
def groupByHead : List (List String × String) → List (String × List (List String × String))
  | [] => []
  | ([], _) :: rest => groupByHead rest
  | (k :: p, v) :: rest =>
    match groupByHead rest with
    | (k2, sub) :: gs =>
      if k2 = k then (k, (p, v) :: sub) :: gs else (k, [(p, v)]) :: (k2, sub) :: gs
    | [] => [(k, [(p, v)])]

/-- Total number of remaining path segments, bounding the recursion depth
of the rebuild. -/
def pairsWeight (pairs : List (List String × String)) : Nat :=
  (pairs.map (fun pr => pr.1.length)).sum

/-- Are the keys exactly the decimal index sequence `"0", "1", ...`?  Such
a group is rebuilt as an array. -/
def isIndexSeq (keys : List String) : Bool :=
  decide (keys = (List.range keys.length).map (fun i => toString i))

/-- Rebuild a nested value from (path, value) pairs: group by first
segment; a group reduced to a single pair with an empty path is a scalar,
any other group is rebuilt recursively; an index-sequence of keys yields
an array, anything else an object.  `fuel` bounds the recursion depth and
is chosen large enough by the caller. -/
def unflattenF : Nat → List (List String × String) → JVal
  | 0, _ => .obj []
  | fuel + 1, pairs =>
    let items := (groupByHead pairs).map (fun g =>
      (g.1,
       match g.2 with
       | [([], v)] => JVal.str v
       | sub => unflattenF fuel sub))
    if isIndexSeq (items.map Prod.fst) then .arr (items.map Prod.snd) else .obj items

/-- The rebuild of one group (named form of the inner match of
`unflattenF`). -/
def rebuildGroupF (fuel : Nat) (sub : List (List String × String)) : JVal :=
  match sub with
  | [([], v)] => JVal.str v
  | sub => unflattenF fuel sub

/-- The reference decoder: the empty string decodes to the empty object;
otherwise split on `&`, decode the fragments and rebuild. -/
def decodeQueryString (s : String) : JVal :=
  if s.data.isEmpty then .obj []
  else
    let pairs := (splitOnChar '&' s.data).map fragToPair
    unflattenF (pairsWeight pairs + 1) pairs

/-! ### Leaves of a query object and well-formedness

`leaves q` lists the (path, value) pairs `buildQueryString` renders, in
order.  `WFQuery` carves out the class of query objects on which the
encoding is lossless: string scalars, non-empty objects and arrays, and
object keys that are non-empty, ASCII, bracket-free and do not start with
a digit (so that they cannot be mistaken for array indices). -/

mutual

/-- The (path, value) leaves of a query value, in serialization order. -/
def leaves : JVal → List (List String × String)
  | .str s => [([], s)]
  | .obj fields => leavesFields fields
  | .arr xs => leavesElems 0 xs
  | _ => []

def leavesFields : List (String × JVal) → List (List String × String)
  | [] => []
  | (k, v) :: rest => (leaves v).map (fun pr => (k :: pr.1, pr.2)) ++ leavesFields rest

def leavesElems : Nat → List JVal → List (List String × String)
  | _, [] => []
  | i, v :: rest => (leaves v).map (fun pr => (toString i :: pr.1, pr.2)) ++ leavesElems (i + 1) rest

end

/-- ASCII character. -/
def asciiChar (c : Char) : Bool := c.toNat < 128

/-- A character allowed in a well-formed object key: ASCII and not a
bracket. -/
def keyChar (c : Char) : Bool := asciiChar c && c ≠ '[' && c ≠ ']'

/-- A well-formed object key: non-empty, made of `keyChar`s, and not
starting with a digit. -/
def goodKey (k : String) : Bool :=
  match k.data with
  | [] => false
  | c :: rest => !c.isDigit && keyChar c && rest.all keyChar

/-- An ASCII-only string. -/
def asciiString (s : String) : Bool := s.data.all asciiChar

/-- Query values for which the bracket encoding is lossless. -/
inductive WFQuery : JVal → Prop where
  | str (s : String) : asciiString s = true → WFQuery (.str s)
  | obj (fields : List (String × JVal)) :
      fields ≠ [] →
      (fields.map Prod.fst).Nodup →
      (∀ kv ∈ fields, goodKey kv.1 = true) →
      (∀ kv ∈ fields, WFQuery kv.2) →
      WFQuery (.obj fields)
  | arr (xs : List JVal) :
      xs ≠ [] →
      (∀ v ∈ xs, WFQuery v) →
      WFQuery (.arr xs)

/-- The accumulated bracket prefix of a path: the `newPrefix` chain of
`buildQueryString`. -/
def extendPfx (pfx : String) (path : List String) : String :=
  path.foldl (fun acc k => if acc ≠ "" then acc ++ "[" ++ k ++ "]" else k) pfx

/-- The fragment `buildQueryString` emits for one leaf under a given
prefix. -/
def renderFrag (pfx : String) (pr : List String × String) : String :=
  encodeURIComponent (extendPfx pfx pr.1) ++ "=" ++ encodeURIComponent pr.2

/-- Decimal digits of `n`, most significant first (the characters of
`Nat.repr`). -/
def natChars (n : Nat) : List Char :=
  if n < 10 then [Nat.digitChar n]
  else natChars (n / 10) ++ [Nat.digitChar (n % 10)]
decreasing_by exact Nat.div_lt_self (by omega) (by omega)

/-- `joinAmp` at the character-list level. -/
def joinAmpL : List (List Char) → List Char
  | [] => []
  | [p] => p
  | p :: rest => p ++ '&' :: joinAmpL rest

/-- The character-level shape of a rendered leaf fragment. -/
def renderFragL (pfx : String) (pr : List String × String) : List Char :=
  percentEncodeL (extendPfx pfx pr.1).data ++ '=' :: percentEncodeL pr.2.data

/-- The groups the reference decoder recovers from the leaves of an array
whose elements start at index `i`. -/
def indexedLeafGroups : Nat → List JVal → List (String × List (List String × String))
  | _, [] => []
  | i, v :: rest => (toString i, leaves v) :: indexedLeafGroups (i + 1) rest

/-- An array's elements paired with their decimal index keys (the entries
`for..in` enumerates on an array). -/
def idxPairs : Nat → List JVal → List (String × JVal)
  | _, [] => []
  | i, v :: rest => (toString i, v) :: idxPairs (i + 1) rest

/-- Is the `id` field of a parsed request present (the transport loop's
`request.id !== undefined` test, false where reading `.id` would throw)? -/
def idPresent (request : JVal) : Bool :=
  match request with
  | .null => false
  | .undef => false
  | r => !isUndef (jsGet r "id")

/-- A `JSON.parse` oracle that fails on every line. -/
def parseFailing : String → Except String JVal :=
  fun _ => .error "Unexpected token x in JSON at position 0"

/-- A `JSON.parse` oracle returning a fixed value on every line. -/
def parseTo (v : JVal) : String → Except String JVal :=
  fun _ => .ok v

/-- An executor-outcome oracle where every tool call throws with a fixed
message. -/
def execRaise (message : String) : String → JVal → Except String JVal :=
  fun _ _ => .error message

/-- An executor-outcome oracle where every tool call returns a fixed
value. -/
def execReturn (v : JVal) : String → JVal → Except String JVal :=
  fun _ _ => .ok v

/-- A backend-call oracle where every call throws with a fixed message. -/
def reqFail (message : String) : ReqOracle :=
  fun _ _ _ => .error message

/-- A backend-call oracle for a one-page media library: the listing call
returns the given files, every other call succeeds with `null`. -/
def reqOnePage (files : List JVal) : ReqOracle :=
  fun endpoint _ _ =>
    if endpoint = mediaPageEndpoint 1 then .ok (.obj [("data", .arr files)]) else .ok .null

/-!
## Theorems

Everything below is proved about the definitions above; no further
definitions are introduced.
-/

/-! ### String and join infrastructure -/

theorem string_eq_iff_data {s t : String} : s = t ↔ s.data = t.data := by
  constructor
  · intro h; rw [h]
  · intro h
    cases s; cases t; exact congrArg String.mk h

theorem string_append_data (s t : String) : (s ++ t).data = s.data ++ t.data :=
  String.data_append s t

theorem string_ne_empty_of_data_ne {s : String} (h : s.data ≠ []) : s ≠ "" := by
  intro hs
  exact h (by rw [hs])

theorem joinAmp_cons (p : String) {rest : List String} (h : rest ≠ []) :
    joinAmp (p :: rest) = p ++ "&" ++ joinAmp rest := by
  cases rest with
  | nil => exact absurd rfl h
  | cons q r => rfl

theorem joinAmp_append {xs ys : List String} (hx : xs ≠ []) (hy : ys ≠ []) :
    joinAmp (xs ++ ys) = joinAmp xs ++ "&" ++ joinAmp ys := by
  induction xs with
  | nil => exact absurd rfl hx
  | cons p rest ih =>
    cases rest with
    | nil =>
      simp only [List.singleton_append]
      rw [joinAmp_cons p hy]
      rfl
    | cons q r =>
      rw [List.cons_append, joinAmp_cons p (by simp), joinAmp_cons p (by simp),
        ih (by simp)]
      simp [String.append_assoc]

theorem joinAmp_singleton (p : String) : joinAmp [p] = p := rfl

theorem joinAmp_data (ss : List String) : (joinAmp ss).data = joinAmpL (ss.map String.data) := by
  induction ss with
  | nil => rfl
  | cons p rest ih =>
    cases rest with
    | nil => rfl
    | cons q r =>
      rw [joinAmp_cons p (by simp)]
      show (p ++ "&" ++ joinAmp (q :: r)).data = p.data ++ '&' :: joinAmpL ((q :: r).map String.data)
      rw [string_append_data, string_append_data, ih]
      simp [String.data]

theorem joinAmp_ne_empty {l : List String} (hne : l ≠ []) (h : ∀ f ∈ l, f ≠ "") :
    joinAmp l ≠ "" := by
  cases l with
  | nil => exact absurd rfl hne
  | cons p rest =>
    cases rest with
    | nil => exact h p (by simp)
    | cons q r =>
      rw [joinAmp_cons p (by simp)]
      apply string_ne_empty_of_data_ne
      rw [string_append_data, string_append_data]
      simp

theorem filter_ne_empty_eq_self {l : List String} (h : ∀ f ∈ l, f ≠ "") :
    l.filter (fun p => p ≠ "") = l := by
  induction l with
  | nil => rfl
  | cons p rest ih =>
    rw [List.filter_cons_of_pos (by simpa using h p (by simp))]
    rw [ih (fun f hf => h f (by simp [hf]))]

theorem joinNonEmpty_eq_joinAmp {l : List String} (h : ∀ f ∈ l, f ≠ "") :
    joinNonEmpty l = joinAmp l := by
  unfold joinNonEmpty
  rw [filter_ne_empty_eq_self h]

/-! ### Prefix bookkeeping -/

theorem extendPfx_nil (pfx : String) : extendPfx pfx [] = pfx := rfl

theorem extendPfx_cons (pfx k : String) (p : List String) :
    extendPfx pfx (k :: p) = extendPfx (if pfx ≠ "" then pfx ++ "[" ++ k ++ "]" else k) p := rfl

theorem extendPfx_ne_empty {pfx : String} {p : List String}
    (h : pfx ≠ "" ∨ (p ≠ [] ∧ ∀ k ∈ p, k ≠ "")) : extendPfx pfx p ≠ "" := by
  induction p generalizing pfx with
  | nil =>
    rcases h with h | ⟨h, _⟩
    · exact h
    · exact absurd rfl h
  | cons k rest ih =>
    rw [extendPfx_cons]
    by_cases hp : pfx = ""
    · subst hp
      simp only [ne_eq, not_true_eq_false, if_neg, ite_false]
      rcases h with h | ⟨_, hk⟩
      · exact absurd rfl h
      · cases rest with
        | nil => exact hk k (by simp)
        | cons _ _ => exact ih (Or.inl (hk k (by simp)))
    · have hne : (if pfx ≠ "" then pfx ++ "[" ++ k ++ "]" else k) = pfx ++ "[" ++ k ++ "]" := by
        simp [hp]
      rw [hne]
      cases rest with
      | nil =>
        apply string_ne_empty_of_data_ne
        rw [extendPfx_nil, string_append_data, string_append_data, string_append_data]
        simp
      | cons _ _ =>
        apply ih
        left
        apply string_ne_empty_of_data_ne
        rw [string_append_data, string_append_data, string_append_data]
        simp

/-! ### Leaves of well-formed values -/

theorem leaves_ne_nil {v : JVal} (h : WFQuery v) : leaves v ≠ [] := by
  induction h with
  | str s hs => simp [leaves]
  | obj fields hne hnodup hkeys hwf ih =>
    cases fields with
    | nil => exact absurd rfl hne
    | cons kv rest =>
      show leavesFields (kv :: rest) ≠ []
      obtain ⟨k, v⟩ := kv
      rw [leavesFields]
      have : leaves v ≠ [] := ih ⟨k, v⟩ (by simp)
      intro hcontra
      rw [List.append_eq_nil] at hcontra
      exact this (by simpa using hcontra.1)
  | arr xs hne hwf ih =>
    cases xs with
    | nil => exact absurd rfl hne
    | cons v rest =>
      show leavesElems 0 (v :: rest) ≠ []
      rw [leavesElems]
      have : leaves v ≠ [] := ih v (by simp)
      intro hcontra
      rw [List.append_eq_nil] at hcontra
      exact this (by simpa using hcontra.1)

/-! ### Decimal rendering (`toString` on `Nat`) -/

theorem natChars_lt {n : Nat} (h : n < 10) : natChars n = [n.digitChar] := by
  rw [natChars, if_pos h]

theorem natChars_ge {n : Nat} (h : ¬ n < 10) :
    natChars n = natChars (n / 10) ++ [(n % 10).digitChar] := by
  conv_lhs => rw [natChars]
  rw [if_neg h]

theorem toDigitsCore_succ (fuel n : Nat) (acc : List Char) :
    Nat.toDigitsCore 10 (fuel + 1) n acc =
      if n / 10 = 0 then (n % 10).digitChar :: acc
      else Nat.toDigitsCore 10 fuel (n / 10) ((n % 10).digitChar :: acc) := rfl

theorem toDigitsCore_eq_natChars (fuel : Nat) :
    ∀ n acc, n < 10 ^ (fuel + 1) → Nat.toDigitsCore 10 (fuel + 1) n acc = natChars n ++ acc := by
  induction fuel with
  | zero =>
    intro n acc h
    have hn : n < 10 := by simpa using h
    have hd : n / 10 = 0 := Nat.div_eq_of_lt hn
    rw [toDigitsCore_succ, if_pos hd, Nat.mod_eq_of_lt hn, natChars_lt hn]
    rfl
  | succ fuel ih =>
    intro n acc h
    rw [toDigitsCore_succ]
    by_cases hd : n / 10 = 0
    · have hn : n < 10 := by omega
      rw [if_pos hd, Nat.mod_eq_of_lt hn, natChars_lt hn]
      rfl
    · have hn : ¬ n < 10 := by omega
      rw [if_neg hd]
      have hfuel : n / 10 < 10 ^ (fuel + 1) := by
        apply Nat.div_lt_of_lt_mul
        calc n < 10 ^ (fuel + 1 + 1) := h
          _ = 10 * 10 ^ (fuel + 1) := by ring
      rw [ih (n / 10) _ hfuel, natChars_ge hn]
      simp

theorem toString_nat_data (n : Nat) : (toString n).data = natChars n := by
  have h1 : toString n = (Nat.toDigitsCore 10 (n + 1) n []).asString := rfl
  have hlt : n < 10 ^ (n + 1) := by
    calc n < 10 ^ n := Nat.lt_pow_self (by omega) n
      _ ≤ 10 ^ (n + 1) := Nat.pow_le_pow_right (by omega) (by omega)
  rw [h1, toDigitsCore_eq_natChars n n [] hlt]
  simp [List.asString]

theorem natChars_ne_nil (n : Nat) : natChars n ≠ [] := by
  by_cases h : n < 10
  · rw [natChars_lt h]; simp
  · rw [natChars_ge h]; simp

theorem toString_nat_ne_empty (n : Nat) : toString n ≠ "" := by
  apply string_ne_empty_of_data_ne
  rw [toString_nat_data]
  exact natChars_ne_nil n

theorem digitChar_isDigit : ∀ m, m < 10 → (Nat.digitChar m).isDigit = true := by decide

theorem natChars_all_digits (n : Nat) : ∀ c ∈ natChars n, c.isDigit = true := by
  induction n using Nat.strong_induction_on with
  | _ n ih =>
    intro c hc
    by_cases h : n < 10
    · rw [natChars_lt h] at hc
      simp at hc
      subst hc
      exact digitChar_isDigit n h
    · rw [natChars_ge h] at hc
      rcases List.mem_append.mp hc with hm | hm
      · exact ih (n / 10) (Nat.div_lt_self (by omega) (by omega)) c hm
      · simp at hm
        subst hm
        exact digitChar_isDigit (n % 10) (Nat.mod_lt n (by omega))

theorem digitChar_inj_lt : ∀ a < 10, ∀ b < 10, Nat.digitChar a = Nat.digitChar b → a = b := by
  decide

theorem natChars_inj : ∀ a b, natChars a = natChars b → a = b := by
  intro a
  induction a using Nat.strong_induction_on with
  | _ a ih =>
    intro b h
    by_cases ha : a < 10 <;> by_cases hb : b < 10
    · rw [natChars_lt ha, natChars_lt hb] at h
      simp at h
      exact digitChar_inj_lt a ha b hb h
    · rw [natChars_lt ha, natChars_ge hb] at h
      have := congrArg List.length h
      simp at this
      have hne := natChars_ne_nil (b / 10)
      cases hcb : natChars (b / 10) with
      | nil => exact absurd hcb hne
      | cons x xs => rw [hcb] at this; simp at this
    · rw [natChars_ge ha, natChars_lt hb] at h
      have := congrArg List.length h
      simp at this
      have hne := natChars_ne_nil (a / 10)
      cases hca : natChars (a / 10) with
      | nil => exact absurd hca hne
      | cons x xs => rw [hca] at this; simp at this
    · rw [natChars_ge ha, natChars_ge hb] at h
      have hlen : [Nat.digitChar (a % 10)].length = [Nat.digitChar (b % 10)].length := by simp
      obtain ⟨h1, h2⟩ := List.append_inj' h hlen
      have hdiv : a / 10 = b / 10 :=
        ih (a / 10) (Nat.div_lt_self (by omega) (by omega)) (b / 10) h1
      have hmod : a % 10 = b % 10 := by
        simp at h2
        exact digitChar_inj_lt _ (Nat.mod_lt a (by omega)) _ (Nat.mod_lt b (by omega)) h2
      omega

theorem toString_nat_inj {a b : Nat} (h : toString a = toString b) : a = b := by
  apply natChars_inj
  rw [← toString_nat_data, ← toString_nat_data, h]

theorem isDigit_keyChar {c : Char} (h : c.isDigit = true) : keyChar c = true := by
  have hb : 48 ≤ c.toNat ∧ c.toNat ≤ 57 := by
    simp [Char.isDigit] at h
    obtain ⟨h1, h2⟩ := h
    exact ⟨h1, h2⟩
  have h91 : ('[' : Char).toNat = 91 := rfl
  have h93 : (']' : Char).toNat = 93 := rfl
  unfold keyChar asciiChar
  have hne1 : c ≠ '[' := by
    intro hc; rw [hc] at hb; simp [h91] at hb
  have hne2 : c ≠ ']' := by
    intro hc; rw [hc] at hb; simp [h93] at hb
  simp [hne1, hne2]
  omega

theorem toString_nat_keyChars (n : Nat) : ∀ c ∈ (toString n).data, keyChar c = true := by
  intro c hc
  rw [toString_nat_data] at hc
  exact isDigit_keyChar (natChars_all_digits n c hc)

/-! ### The serializer renders exactly its leaves -/

theorem renderFrag_ne_empty (pfx : String) (pr : List String × String) : renderFrag pfx pr ≠ "" := by
  apply string_ne_empty_of_data_ne
  unfold renderFrag
  rw [string_append_data, string_append_data]
  simp

theorem renderFrag_shift (pfx k : String) (p : List String) (val : String) :
    renderFrag pfx (k :: p, val) =
      renderFrag (if pfx ≠ "" then pfx ++ "[" ++ k ++ "]" else k) (p, val) := rfl

theorem renderFrag_nilpath (pfx val : String) :
    renderFrag pfx ([], val) = encodeURIComponent pfx ++ "=" ++ encodeURIComponent val := rfl

theorem goodKey_ne_empty {k : String} (h : goodKey k = true) : k ≠ "" := by
  apply string_ne_empty_of_data_ne
  intro hd
  unfold goodKey at h
  rw [hd] at h
  simp at h

theorem append_bracket_ne_empty (a k : String) : a ++ "[" ++ k ++ "]" ≠ "" := by
  apply string_ne_empty_of_data_ne
  rw [string_append_data, string_append_data, string_append_data]
  simp

theorem entry_pfx_ne_empty {k : String} (pfx : String) (hk : k ≠ "") :
    (if pfx ≠ "" then pfx ++ "[" ++ k ++ "]" else k) ≠ "" := by
  by_cases hp : pfx ≠ ""
  · rw [if_pos hp]; exact append_bracket_ne_empty pfx k
  · rw [if_neg hp]; exact hk

theorem leavesFields_ne_nil {fields : List (String × JVal)} (hne : fields ≠ [])
    (hwf : ∀ kv ∈ fields, WFQuery kv.2) : leavesFields fields ≠ [] := by
  cases fields with
  | nil => exact absurd rfl hne
  | cons kv rest =>
    obtain ⟨k, v⟩ := kv
    have hl := leaves_ne_nil (hwf (k, v) (by simp))
    intro hcontra
    simp only [leavesFields] at hcontra
    rcases List.append_eq_nil.mp hcontra with ⟨h1, _⟩
    exact hl (List.map_eq_nil_iff.mp h1)

theorem leavesElems_ne_nil {xs : List JVal} (hne : xs ≠ [])
    (hwf : ∀ v ∈ xs, WFQuery v) (i : Nat) : leavesElems i xs ≠ [] := by
  cases xs with
  | nil => exact absurd rfl hne
  | cons v rest =>
    have hl := leaves_ne_nil (hwf v (by simp))
    intro hcontra
    simp only [leavesElems] at hcontra
    rcases List.append_eq_nil.mp hcontra with ⟨h1, _⟩
    exact hl (List.map_eq_nil_iff.mp h1)

theorem buildQueryIdxFields_eq (xs : List JVal) (pfx : String) :
    ∀ i, buildQueryIdxFields i xs pfx = buildQueryFields (idxPairs i xs) pfx := by
  induction xs with
  | nil => intro i; rfl
  | cons v rest ih =>
    intro i
    cases v <;> simp only [buildQueryIdxFields, idxPairs, buildQueryFields] <;> rw [ih]

theorem leavesElems_eq (xs : List JVal) :
    ∀ i, leavesElems i xs = leavesFields (idxPairs i xs) := by
  induction xs with
  | nil => intro i; rfl
  | cons v rest ih =>
    intro i
    simp only [leavesElems, idxPairs, leavesFields]
    rw [ih]

theorem idxPairs_mem {kv : String × JVal} :
    ∀ {i : Nat} {xs : List JVal}, kv ∈ idxPairs i xs → kv.2 ∈ xs ∧ ∃ j : Nat, kv.1 = toString j := by
  intro i xs
  induction xs generalizing i with
  | nil => intro h; simp [idxPairs] at h
  | cons v rest ih =>
    intro h
    simp only [idxPairs] at h
    rcases List.mem_cons.mp h with h | h
    · subst h; exact ⟨by simp, i, rfl⟩
    · obtain ⟨h1, h2⟩ := ih h
      exact ⟨by simp [h1], h2⟩

theorem joinAmp_head_step {E M R Q : List String}
    (hE : joinAmp E = joinAmp M) (hEne : E ≠ []) (hMne : M ≠ [])
    (hR : joinAmp R = joinAmp Q)
    (hcase : (R = [] ∧ Q = []) ∨ (R ≠ [] ∧ Q ≠ [])) :
    joinAmp (E ++ R) = joinAmp (M ++ Q) := by
  rcases hcase with ⟨h1, h2⟩ | ⟨h1, h2⟩
  · subst h1; subst h2; rw [List.append_nil, List.append_nil]; exact hE
  · rw [joinAmp_append hEne h1, joinAmp_append hMne h2, hE, hR]

theorem map_renderFrag_prefixed (lvs : List (List String × String)) (pfx k : String)
    (hnp : (if pfx ≠ "" then pfx ++ "[" ++ k ++ "]" else k) = extendPfx pfx [k]) :
    (lvs.map (fun pr => (k :: pr.1, pr.2))).map (renderFrag pfx) =
      lvs.map (renderFrag (extendPfx pfx [k])) := by
  rw [List.map_map]
  apply List.map_congr_left
  intro pr hpr
  show renderFrag pfx (k :: pr.1, pr.2) = renderFrag (extendPfx pfx [k]) pr
  rw [renderFrag_shift, hnp]

theorem buildQueryArrayElems_spec (B : Nat)
    (IH : ∀ w, sizeOf w < B → WFQuery w →
      (∀ pfx', buildQueryString w pfx' = joinAmp ((leaves w).map (renderFrag pfx'))) ∨
        ∃ s, w = JVal.str s)
    (xs : List JVal) :
    ∀ (i : Nat) (newPfx : String), newPfx ≠ "" →
      (∀ v ∈ xs, WFQuery v) → (∀ v ∈ xs, sizeOf v < B) →
      (∀ f ∈ buildQueryArrayElems xs i newPfx, f ≠ "") ∧
      (xs ≠ [] → buildQueryArrayElems xs i newPfx ≠ []) ∧
      joinAmp (buildQueryArrayElems xs i newPfx) =
        joinAmp ((leavesElems i xs).map (renderFrag newPfx)) := by
  induction xs with
  | nil =>
    intro i newPfx hpfx hwf hsz
    refine ⟨?_, ?_, rfl⟩
    · intro f hf; simp [buildQueryArrayElems] at hf
    · intro h; exact absurd rfl h
  | cons v rest ihr =>
    intro i newPfx hpfx hwf hsz
    obtain ⟨ih1, ih2, ih3⟩ := ihr (i + 1) newPfx hpfx
      (fun w hw => hwf w (by simp [hw])) (fun w hw => hsz w (by simp [hw]))
    have hshift : (if newPfx ≠ "" then newPfx ++ "[" ++ toString i ++ "]" else toString i)
        = newPfx ++ "[" ++ toString i ++ "]" := if_pos hpfx
    have hext : (if newPfx ≠ "" then newPfx ++ "[" ++ toString i ++ "]" else toString i)
        = extendPfx newPfx [toString i] := rfl
    have hcaseRQ : (buildQueryArrayElems rest (i + 1) newPfx = [] ∧
          (leavesElems (i + 1) rest).map (renderFrag newPfx) = []) ∨
        (buildQueryArrayElems rest (i + 1) newPfx ≠ [] ∧
          (leavesElems (i + 1) rest).map (renderFrag newPfx) ≠ []) := by
      cases rest with
      | nil => left; exact ⟨rfl, rfl⟩
      | cons w ws =>
        right
        refine ⟨ih2 (by simp), ?_⟩
        intro hq
        exact leavesElems_ne_nil (by simp) (fun u hu => hwf u (by simp [hu])) (i + 1)
          (List.map_eq_nil_iff.mp hq)
    cases v with
    | null => cases hwf .null (by simp)
    | undef => cases hwf .undef (by simp)
    | bool b => cases hwf (.bool b) (by simp)
    | num n => cases hwf (.num n) (by simp)
    | str s =>
      have hfrag : encodeURIComponent (newPfx ++ "[" ++ toString i ++ "]") ++ "="
            ++ encodeURIComponent (scalarCoerce (.str s))
          = renderFrag newPfx ([toString i], s) := by
        rw [renderFrag_shift, hshift, renderFrag_nilpath]
        rfl
      refine ⟨?_, ?_, ?_⟩
      · intro f hf
        simp only [buildQueryArrayElems] at hf
        rcases List.mem_append.mp hf with hm | hm
        · simp at hm
          rw [hm, hfrag]
          exact renderFrag_ne_empty _ _
        · exact ih1 f hm
      · intro _
        simp [buildQueryArrayElems]
      · show joinAmp ([encodeURIComponent (newPfx ++ "[" ++ toString i ++ "]") ++ "="
            ++ encodeURIComponent (scalarCoerce (.str s))]
            ++ buildQueryArrayElems rest (i + 1) newPfx) = _
        have hleaves : (leavesElems i (JVal.str s :: rest)).map (renderFrag newPfx)
            = [renderFrag newPfx ([toString i], s)]
              ++ (leavesElems (i + 1) rest).map (renderFrag newPfx) := by
          simp only [leavesElems, leaves, List.map_map, List.map_append]
          rfl
        rw [hleaves]
        exact joinAmp_head_step (by rw [joinAmp_singleton, joinAmp_singleton, hfrag])
          (by simp) (by simp) ih3 hcaseRQ
    | obj fobj =>
      have hv : WFQuery (.obj fobj) := hwf _ (by simp)
      have hspec : ∀ pfx', buildQueryString (.obj fobj) pfx'
          = joinAmp ((leaves (.obj fobj)).map (renderFrag pfx')) := by
        rcases IH _ (hsz _ (by simp)) hv with h | ⟨s, hs⟩
        · exact h
        · cases hs
      have hMne : (leaves (JVal.obj fobj)).map (renderFrag (newPfx ++ "[" ++ toString i ++ "]")) ≠ [] := by
        intro hq
        exact leaves_ne_nil hv (List.map_eq_nil_iff.mp hq)
      have hJ : buildQueryString (.obj fobj) (newPfx ++ "[" ++ toString i ++ "]")
          = joinAmp ((leaves (.obj fobj)).map (renderFrag (newPfx ++ "[" ++ toString i ++ "]"))) :=
        hspec _
      have hJne : buildQueryString (.obj fobj) (newPfx ++ "[" ++ toString i ++ "]") ≠ "" := by
        rw [hJ]
        apply joinAmp_ne_empty hMne
        intro f hf
        rcases List.mem_map.mp hf with ⟨pr, _, hpr⟩
        rw [← hpr]
        exact renderFrag_ne_empty _ _
      refine ⟨?_, ?_, ?_⟩
      · intro f hf
        simp only [buildQueryArrayElems] at hf
        rcases List.mem_append.mp hf with hm | hm
        · simp at hm; rw [hm]; exact hJne
        · exact ih1 f hm
      · intro _
        simp [buildQueryArrayElems]
      · show joinAmp ([buildQueryString (.obj fobj) (newPfx ++ "[" ++ toString i ++ "]")]
            ++ buildQueryArrayElems rest (i + 1) newPfx) = _
        have hleaves : (leavesElems i (JVal.obj fobj :: rest)).map (renderFrag newPfx)
            = (leaves (JVal.obj fobj)).map (renderFrag (newPfx ++ "[" ++ toString i ++ "]"))
              ++ (leavesElems (i + 1) rest).map (renderFrag newPfx) := by
          simp only [leavesElems, List.map_append]
          rw [map_renderFrag_prefixed _ _ _ (hshift ▸ hext), ← hext, hshift]
        rw [hleaves]
        exact joinAmp_head_step (by rw [joinAmp_singleton, hJ]) (by simp) hMne ih3 hcaseRQ
    | arr ys =>
      have hv : WFQuery (.arr ys) := hwf _ (by simp)
      have hspec : ∀ pfx', buildQueryString (.arr ys) pfx'
          = joinAmp ((leaves (.arr ys)).map (renderFrag pfx')) := by
        rcases IH _ (hsz _ (by simp)) hv with h | ⟨s, hs⟩
        · exact h
        · cases hs
      have hMne : (leaves (JVal.arr ys)).map (renderFrag (newPfx ++ "[" ++ toString i ++ "]")) ≠ [] := by
        intro hq
        exact leaves_ne_nil hv (List.map_eq_nil_iff.mp hq)
      have hJ : buildQueryString (.arr ys) (newPfx ++ "[" ++ toString i ++ "]")
          = joinAmp ((leaves (.arr ys)).map (renderFrag (newPfx ++ "[" ++ toString i ++ "]"))) :=
        hspec _
      have hJne : buildQueryString (.arr ys) (newPfx ++ "[" ++ toString i ++ "]") ≠ "" := by
        rw [hJ]
        apply joinAmp_ne_empty hMne
        intro f hf
        rcases List.mem_map.mp hf with ⟨pr, _, hpr⟩
        rw [← hpr]
        exact renderFrag_ne_empty _ _
      refine ⟨?_, ?_, ?_⟩
      · intro f hf
        simp only [buildQueryArrayElems] at hf
        rcases List.mem_append.mp hf with hm | hm
        · simp at hm; rw [hm]; exact hJne
        · exact ih1 f hm
      · intro _
        simp [buildQueryArrayElems]
      · show joinAmp ([buildQueryString (.arr ys) (newPfx ++ "[" ++ toString i ++ "]")]
            ++ buildQueryArrayElems rest (i + 1) newPfx) = _
        have hleaves : (leavesElems i (JVal.arr ys :: rest)).map (renderFrag newPfx)
            = (leaves (JVal.arr ys)).map (renderFrag (newPfx ++ "[" ++ toString i ++ "]"))
              ++ (leavesElems (i + 1) rest).map (renderFrag newPfx) := by
          simp only [leavesElems, List.map_append]
          rw [map_renderFrag_prefixed _ _ _ (hshift ▸ hext), ← hext, hshift]
        rw [hleaves]
        exact joinAmp_head_step (by rw [joinAmp_singleton, hJ]) (by simp) hMne ih3 hcaseRQ

theorem buildQueryFields_spec (B : Nat)
    (IH : ∀ w, sizeOf w < B → WFQuery w →
      (∀ pfx', buildQueryString w pfx' = joinAmp ((leaves w).map (renderFrag pfx'))) ∨
        ∃ s, w = JVal.str s)
    (fields : List (String × JVal)) :
    ∀ pfx : String,
      (∀ kv ∈ fields, kv.1 ≠ "") →
      (∀ kv ∈ fields, WFQuery kv.2) →
      (∀ kv ∈ fields, sizeOf kv.2 < B) →
      (∀ f ∈ buildQueryFields fields pfx, f ≠ "") ∧
      (fields ≠ [] → buildQueryFields fields pfx ≠ []) ∧
      joinAmp (buildQueryFields fields pfx) =
        joinAmp ((leavesFields fields).map (renderFrag pfx)) := by
  induction fields with
  | nil =>
    intro pfx hkeys hwf hsz
    refine ⟨?_, ?_, rfl⟩
    · intro f hf; simp [buildQueryFields] at hf
    · intro h; exact absurd rfl h
  | cons kv rest ihr =>
    intro pfx hkeys hwf hsz
    obtain ⟨k, v⟩ := kv
    obtain ⟨ih1, ih2, ih3⟩ := ihr pfx
      (fun w hw => hkeys w (by simp [hw])) (fun w hw => hwf w (by simp [hw]))
      (fun w hw => hsz w (by simp [hw]))
    have hk : k ≠ "" := hkeys (k, v) (by simp)
    have hnp : (if pfx ≠ "" then pfx ++ "[" ++ k ++ "]" else k) ≠ "" := entry_pfx_ne_empty pfx hk
    have hext : (if pfx ≠ "" then pfx ++ "[" ++ k ++ "]" else k) = extendPfx pfx [k] := rfl
    have hcaseRQ : (buildQueryFields rest pfx = [] ∧
          (leavesFields rest).map (renderFrag pfx) = []) ∨
        (buildQueryFields rest pfx ≠ [] ∧
          (leavesFields rest).map (renderFrag pfx) ≠ []) := by
      cases rest with
      | nil => left; exact ⟨rfl, rfl⟩
      | cons w ws =>
        right
        refine ⟨ih2 (by simp), ?_⟩
        intro hq
        exact leavesFields_ne_nil (by simp) (fun u hu => hwf u (by simp [hu]))
          (List.map_eq_nil_iff.mp hq)
    cases v with
    | null => cases hwf (k, .null) (by simp)
    | undef => cases hwf (k, .undef) (by simp)
    | bool b => cases hwf (k, .bool b) (by simp)
    | num n => cases hwf (k, .num n) (by simp)
    | str s =>
      have hfrag : encodeURIComponent (if pfx ≠ "" then pfx ++ "[" ++ k ++ "]" else k) ++ "="
            ++ encodeURIComponent (scalarCoerce (.str s))
          = renderFrag pfx ([k], s) := by
        rw [renderFrag_shift, renderFrag_nilpath]
        rfl
      refine ⟨?_, ?_, ?_⟩
      · intro f hf
        simp only [buildQueryFields] at hf
        rcases List.mem_append.mp hf with hm | hm
        · simp only [List.mem_singleton] at hm
          rw [hm, hfrag]
          exact renderFrag_ne_empty _ _
        · exact ih1 f hm
      · intro _
        simp [buildQueryFields]
      · show joinAmp ([encodeURIComponent (if pfx ≠ "" then pfx ++ "[" ++ k ++ "]" else k) ++ "="
            ++ encodeURIComponent (scalarCoerce (.str s))]
            ++ buildQueryFields rest pfx) = _
        have hleaves : (leavesFields ((k, JVal.str s) :: rest)).map (renderFrag pfx)
            = [renderFrag pfx ([k], s)] ++ (leavesFields rest).map (renderFrag pfx) := by
          simp only [leavesFields, leaves, List.map_map, List.map_append]
          rfl
        rw [hleaves]
        exact joinAmp_head_step (by rw [joinAmp_singleton, joinAmp_singleton, hfrag])
          (by simp) (by simp) ih3 hcaseRQ
    | obj fobj =>
      have hv : WFQuery (.obj fobj) := hwf (k, .obj fobj) (by simp)
      have hspec : ∀ pfx', buildQueryString (.obj fobj) pfx'
          = joinAmp ((leaves (.obj fobj)).map (renderFrag pfx')) := by
        rcases IH _ (hsz (k, .obj fobj) (by simp)) hv with h | ⟨s, hs⟩
        · exact h
        · cases hs
      have hMne : (leaves (JVal.obj fobj)).map
          (renderFrag (if pfx ≠ "" then pfx ++ "[" ++ k ++ "]" else k)) ≠ [] := by
        intro hq
        exact leaves_ne_nil hv (List.map_eq_nil_iff.mp hq)
      have hJ := hspec (if pfx ≠ "" then pfx ++ "[" ++ k ++ "]" else k)
      have hJne : buildQueryString (.obj fobj) (if pfx ≠ "" then pfx ++ "[" ++ k ++ "]" else k) ≠ "" := by
        rw [hJ]
        apply joinAmp_ne_empty hMne
        intro f hf
        rcases List.mem_map.mp hf with ⟨pr, _, hpr⟩
        rw [← hpr]
        exact renderFrag_ne_empty _ _
      refine ⟨?_, ?_, ?_⟩
      · intro f hf
        simp only [buildQueryFields] at hf
        rcases List.mem_append.mp hf with hm | hm
        · simp only [List.mem_singleton] at hm; rw [hm]; exact hJne
        · exact ih1 f hm
      · intro _
        simp [buildQueryFields]
      · show joinAmp ([buildQueryString (.obj fobj) (if pfx ≠ "" then pfx ++ "[" ++ k ++ "]" else k)]
            ++ buildQueryFields rest pfx) = _
        have hleaves : (leavesFields ((k, JVal.obj fobj) :: rest)).map (renderFrag pfx)
            = (leaves (JVal.obj fobj)).map
                (renderFrag (if pfx ≠ "" then pfx ++ "[" ++ k ++ "]" else k))
              ++ (leavesFields rest).map (renderFrag pfx) := by
          simp only [leavesFields, List.map_append]
          rw [map_renderFrag_prefixed _ _ _ hext, ← hext]
        rw [hleaves]
        exact joinAmp_head_step (by rw [joinAmp_singleton, hJ]) (by simp) hMne ih3 hcaseRQ
    | arr ys =>
      have hv : WFQuery (.arr ys) := hwf (k, .arr ys) (by simp)
      have hys : ys ≠ [] ∧ ∀ w ∈ ys, WFQuery w := by
        cases hv with
        | arr _ h1 h2 => exact ⟨h1, h2⟩
      have hszys : ∀ w ∈ ys, sizeOf w < B := by
        intro w hw
        have h1 : sizeOf w < sizeOf (JVal.arr ys) := by
          have := List.sizeOf_lt_of_mem hw
          simp
          omega
        have h2 : sizeOf (JVal.arr ys) < B := hsz (k, .arr ys) (by simp)
        omega
      obtain ⟨ae1, ae2, ae3⟩ := buildQueryArrayElems_spec B IH ys 0
        (if pfx ≠ "" then pfx ++ "[" ++ k ++ "]" else k) hnp hys.2 hszys
      have hEne : buildQueryArrayElems ys 0 (if pfx ≠ "" then pfx ++ "[" ++ k ++ "]" else k) ≠ [] :=
        ae2 hys.1
      have hMne : (leavesElems 0 ys).map
          (renderFrag (if pfx ≠ "" then pfx ++ "[" ++ k ++ "]" else k)) ≠ [] := by
        intro hq
        exact leavesElems_ne_nil hys.1 hys.2 0 (List.map_eq_nil_iff.mp hq)
      refine ⟨?_, ?_, ?_⟩
      · intro f hf
        simp only [buildQueryFields] at hf
        rcases List.mem_append.mp hf with hm | hm
        · exact ae1 f hm
        · exact ih1 f hm
      · intro _
        simp only [buildQueryFields]
        intro hcontra
        exact hEne (List.append_eq_nil.mp hcontra).1
      · show joinAmp (buildQueryArrayElems ys 0 (if pfx ≠ "" then pfx ++ "[" ++ k ++ "]" else k)
            ++ buildQueryFields rest pfx) = _
        have hleaves : (leavesFields ((k, JVal.arr ys) :: rest)).map (renderFrag pfx)
            = (leavesElems 0 ys).map
                (renderFrag (if pfx ≠ "" then pfx ++ "[" ++ k ++ "]" else k))
              ++ (leavesFields rest).map (renderFrag pfx) := by
          simp only [leavesFields, leaves, List.map_append]
          rw [map_renderFrag_prefixed _ _ _ hext, ← hext]
        rw [hleaves]
        exact joinAmp_head_step ae3 hEne hMne ih3 hcaseRQ

theorem buildQuery_renders_aux :
    ∀ (B : Nat) (w : JVal), sizeOf w < B → WFQuery w →
      (∀ pfx, buildQueryString w pfx = joinAmp ((leaves w).map (renderFrag pfx))) ∨
        ∃ s, w = JVal.str s := by
  intro B
  induction B with
  | zero => intro w h; omega
  | succ B ihB =>
    intro w hw hwf
    cases hwf with
    | str s hs => exact Or.inr ⟨s, rfl⟩
    | obj fields hne hnodup hkeys hwfs =>
      left
      intro pfx
      have hsz : ∀ kv ∈ fields, sizeOf kv.2 < B := by
        intro kv hkv
        have h1 : sizeOf kv.2 < sizeOf (JVal.obj fields) := by
          have := List.sizeOf_lt_of_mem hkv
          obtain ⟨a, b⟩ := kv
          simp at this ⊢
          omega
        omega
      obtain ⟨f1, f2, f3⟩ := buildQueryFields_spec B ihB fields pfx
        (fun kv hkv => goodKey_ne_empty (hkeys kv hkv)) hwfs hsz
      show joinNonEmpty (buildQueryFields fields pfx) = _
      rw [joinNonEmpty_eq_joinAmp f1, f3]
      rfl
    | arr xs hne hwfs =>
      left
      intro pfx
      have hsz : ∀ kv ∈ idxPairs 0 xs, sizeOf kv.2 < B := by
        intro kv hkv
        have hmem := (idxPairs_mem hkv).1
        have h1 : sizeOf kv.2 < sizeOf (JVal.arr xs) := by
          have := List.sizeOf_lt_of_mem hmem
          simp
          omega
        omega
      obtain ⟨f1, f2, f3⟩ := buildQueryFields_spec B ihB (idxPairs 0 xs) pfx
        (fun kv hkv => by
          obtain ⟨j, hj⟩ := (idxPairs_mem hkv).2
          rw [hj]
          exact toString_nat_ne_empty j)
        (fun kv hkv => hwfs kv.2 (idxPairs_mem hkv).1) hsz
      show joinNonEmpty (buildQueryIdxFields 0 xs pfx) = _
      rw [buildQueryIdxFields_eq xs pfx 0, joinNonEmpty_eq_joinAmp f1, f3]
      show joinAmp ((leavesFields (idxPairs 0 xs)).map (renderFrag pfx)) = _
      rw [← leavesElems_eq xs 0]
      rfl

theorem buildQuery_renders {w : JVal} (hwf : WFQuery w)
    (hcomp : (∃ fields, w = JVal.obj fields) ∨ ∃ xs, w = JVal.arr xs) (pfx : String) :
    buildQueryString w pfx = joinAmp ((leaves w).map (renderFrag pfx)) := by
  rcases buildQuery_renders_aux (sizeOf w + 1) w (by omega) hwf with h | ⟨s, hs⟩
  · exact h pfx
  · subst hs
    rcases hcomp with ⟨fields, hf⟩ | ⟨xs, hx⟩
    · simp at hf
    · simp at hx

/-! ### Percent-decoding inverts percent-encoding on ASCII input -/

theorem percentDecodeL_cons_ne {c : Char} (rest : List Char) (h : c ≠ '%') :
    percentDecodeL (c :: rest) = c :: percentDecodeL rest := by
  rcases rest with _ | ⟨h1, _ | ⟨h2, t⟩⟩ <;> rw [percentDecodeL.eq_def] <;> simp [h]

theorem char_toNat_lt (c : Char) : c.toNat < 1114112 := by
  have hv := c.valid
  show c.val.toNat < 1114112
  rcases hv with h | ⟨h1, h2⟩ <;> omega

theorem hexVal_hexDigit : ∀ n, n < 16 → hexVal (hexDigit n) = some n := by decide

theorem uriUnreserved_spec : uriUnreserved '%' = false ∧ uriUnreserved '&' = false ∧
    uriUnreserved '=' = false := by decide

theorem hexDigit_ne : ∀ n, n < 16 → hexDigit n ≠ '&' ∧ hexDigit n ≠ '=' := by decide

theorem utf8Bytes_lt_256 {v : Nat} (hv : v < 1114112) : ∀ b ∈ utf8Bytes v, b < 256 := by
  intro b hb
  unfold utf8Bytes at hb
  by_cases h1 : v < 128
  · rw [if_pos h1] at hb; simp at hb; omega
  · rw [if_neg h1] at hb
    by_cases h2 : v < 2048
    · rw [if_pos h2] at hb; simp at hb; rcases hb with hb | hb <;> omega
    · rw [if_neg h2] at hb
      by_cases h3 : v < 65536
      · rw [if_pos h3] at hb; simp at hb; rcases hb with hb | hb | hb <;> omega
      · rw [if_neg h3] at hb; simp at hb; rcases hb with hb | hb | hb | hb <;> omega

theorem percentDecode_encodeChar (c : Char) (hc : c.toNat < 128) (t : List Char) :
    percentDecodeL (percentEncodeChar c ++ t) = c :: percentDecodeL t := by
  unfold percentEncodeChar
  by_cases hu : uriUnreserved c
  · rw [if_pos hu]
    have hne : c ≠ '%' := by
      intro hcc
      rw [hcc, uriUnreserved_spec.1] at hu
      exact Bool.noConfusion hu
    simpa using percentDecodeL_cons_ne t hne
  · rw [if_neg hu]
    have hbytes : utf8Bytes c.toNat = [c.toNat] := by unfold utf8Bytes; rw [if_pos hc]
    rw [hbytes]
    show percentDecodeL ('%' :: hexDigit (c.toNat / 16) :: hexDigit (c.toNat % 16) :: t)
        = c :: percentDecodeL t
    have hsum : 16 * (c.toNat / 16) + c.toNat % 16 = c.toNat := by omega
    rw [percentDecodeL.eq_def]
    simp [hexVal_hexDigit (c.toNat / 16) (by omega), hexVal_hexDigit (c.toNat % 16) (by omega),
      hsum, Char.ofNat_toNat]

theorem percentDecode_percentEncode {l : List Char} (h : ∀ c ∈ l, c.toNat < 128) :
    percentDecodeL (percentEncodeL l) = l := by
  induction l with
  | nil => rfl
  | cons c rest ih =>
    show percentDecodeL ((c :: rest).flatMap percentEncodeChar) = c :: rest
    rw [List.flatMap_cons]
    rw [percentDecode_encodeChar c (h c (by simp))]
    show c :: percentDecodeL (percentEncodeL rest) = c :: rest
    rw [ih (fun d hd => h d (by simp [hd]))]

theorem percentEncode_mem_ne {l : List Char} :
    ∀ c' ∈ percentEncodeL l, c' ≠ '&' ∧ c' ≠ '=' := by
  intro c' hc'
  unfold percentEncodeL at hc'
  rcases List.mem_flatMap.mp hc' with ⟨c, hcmem, hin⟩
  unfold percentEncodeChar at hin
  by_cases hu : uriUnreserved c
  · rw [if_pos hu] at hin
    simp at hin
    subst hin
    constructor <;> intro hcc <;> rw [hcc] at hu
    · rw [uriUnreserved_spec.2.1] at hu; exact Bool.noConfusion hu
    · rw [uriUnreserved_spec.2.2] at hu; exact Bool.noConfusion hu
  · rw [if_neg hu] at hin
    rcases List.mem_flatMap.mp hin with ⟨b, hbmem, hbin⟩
    have hb : b < 256 := utf8Bytes_lt_256 (char_toNat_lt c) b hbmem
    simp at hbin
    rcases hbin with h | h | h
    · subst h; constructor <;> decide
    · subst h; exact hexDigit_ne _ (by omega)
    · subst h; exact hexDigit_ne _ (by omega)

/-! ### Splitting joined fragments -/

theorem splitOnChar_cons (sep c : Char) (rest : List Char) :
    splitOnChar sep (c :: rest) =
      if c = sep then [] :: splitOnChar sep rest
      else
        match splitOnChar sep rest with
        | g :: gs => (c :: g) :: gs
        | [] => [[c]] := rfl

theorem splitOnChar_not_mem {sep : Char} {a : List Char} (h : sep ∉ a) :
    splitOnChar sep a = [a] := by
  induction a with
  | nil => rfl
  | cons c rest ih =>
    have hc : ¬ c = sep := fun hcc => h (by simp [hcc])
    rw [splitOnChar_cons, if_neg hc, ih (fun hm => h (by simp [hm]))]

theorem splitOnChar_append {sep : Char} {a : List Char} (rest : List Char) (h : sep ∉ a) :
    splitOnChar sep (a ++ sep :: rest) = a :: splitOnChar sep rest := by
  induction a with
  | nil =>
    show splitOnChar sep (sep :: rest) = [] :: splitOnChar sep rest
    rw [splitOnChar_cons, if_pos rfl]
  | cons c a' ih =>
    have hc : ¬ c = sep := fun hcc => h (by simp [hcc])
    show splitOnChar sep (c :: (a' ++ sep :: rest)) = (c :: a') :: splitOnChar sep rest
    rw [splitOnChar_cons, if_neg hc, ih (fun hm => h (by simp [hm]))]

theorem splitOnChar_joinAmpL {frags : List (List Char)} (hne : frags ≠ [])
    (hfree : ∀ f ∈ frags, '&' ∉ f) :
    splitOnChar '&' (joinAmpL frags) = frags := by
  induction frags with
  | nil => exact absurd rfl hne
  | cons f rest ih =>
    cases rest with
    | nil => exact splitOnChar_not_mem (hfree f (by simp))
    | cons g gs =>
      show splitOnChar '&' (f ++ '&' :: joinAmpL (g :: gs)) = f :: (g :: gs)
      rw [splitOnChar_append _ (hfree f (by simp))]
      rw [ih (by simp) (fun u hu => hfree u (by simp [hu]))]

theorem takeWhile_dropWhile_sep {p : Char → Bool} {K : List Char} (V : List Char) (sep : Char)
    (hK : ∀ c ∈ K, p c = true) (hsep : p sep = false) :
    (K ++ sep :: V).takeWhile p = K ∧ (K ++ sep :: V).dropWhile p = sep :: V := by
  induction K with
  | nil => simp [List.takeWhile_cons, List.dropWhile_cons, hsep]
  | cons c K' ih =>
    have hc := hK c (by simp)
    obtain ⟨ih1, ih2⟩ := ih (fun d hd => hK d (by simp [hd]))
    constructor
    · show ((c :: (K' ++ sep :: V)).takeWhile p) = c :: K'
      rw [List.takeWhile_cons, if_pos (by rw [hc])]
      rw [ih1]
    · show ((c :: (K' ++ sep :: V)).dropWhile p) = sep :: V
      rw [List.dropWhile_cons, if_pos (by rw [hc])]
      exact ih2

/-! ### Recovering the leaves from the rendered string -/

theorem renderFrag_data (pfx : String) (pr : List String × String) :
    (renderFrag pfx pr).data = renderFragL pfx pr := by
  unfold renderFrag renderFragL
  rw [string_append_data, string_append_data]
  show percentEncodeL _ ++ ['='] ++ percentEncodeL _ = _
  rw [List.append_assoc]
  rfl

theorem keyChar_split {c : Char} (h : keyChar c = true) :
    c.toNat < 128 ∧ c ≠ '[' ∧ c ≠ ']' := by
  unfold keyChar asciiChar at h
  simp at h
  exact ⟨h.1.1, h.1.2, h.2⟩

theorem goodKey_chars {k : String} (h : goodKey k = true) :
    ∀ c ∈ k.data, keyChar c = true := by
  unfold goodKey at h
  intro c hc
  cases hd : k.data with
  | nil => rw [hd] at hc; simp at hc
  | cons c0 rest =>
    rw [hd] at h hc
    simp at h
    rcases List.mem_cons.mp hc with rfl | hm
    · exact h.1.2
    · exact h.2 c hm

theorem extendPfx_data {ks : List String} :
    ∀ {acc : String}, acc ≠ "" →
      (extendPfx acc ks).data
        = acc.data ++ ks.flatMap (fun k => '[' :: (k.data ++ [']'])) := by
  induction ks with
  | nil => intro acc _; simp [extendPfx_nil]
  | cons k ks' ih =>
    intro acc hacc
    rw [extendPfx_cons, if_pos hacc]
    rw [ih (append_bracket_ne_empty acc k)]
    rw [string_append_data, string_append_data, string_append_data]
    show acc.data ++ ['['] ++ k.data ++ [']'] ++ _ = _
    rw [List.flatMap_cons]
    simp [List.append_assoc]

theorem splitOnChar_brackets {ks : List String} :
    (∀ k ∈ ks, ∀ c ∈ k.data, keyChar c = true) →
    ∀ {head : List Char}, '[' ∉ head →
      splitOnChar '[' (head ++ ks.flatMap (fun k => '[' :: (k.data ++ [']'])))
        = head :: ks.map (fun k => k.data ++ [']']) := by
  induction ks with
  | nil =>
    intro _ head hh
    simpa using splitOnChar_not_mem hh
  | cons k ks' ih =>
    intro hks head hh
    have hkfree : '[' ∉ k.data ++ [']'] := by
      intro hm
      rcases List.mem_append.mp hm with hm | hm
      · exact (keyChar_split (hks k (by simp) _ hm)).2.1 rfl
      · simp at hm
    rw [List.flatMap_cons]
    have hassoc : head ++ ('[' :: (k.data ++ [']'])
          ++ ks'.flatMap (fun k => '[' :: (k.data ++ [']'])))
        = head ++ '[' :: ((k.data ++ [']'])
          ++ ks'.flatMap (fun k => '[' :: (k.data ++ [']']))) := by
      simp
    rw [hassoc, splitOnChar_append _ hh,
      ih (fun u hu => hks u (by simp [hu])) hkfree]
    simp

theorem extendPfx_empty_cons (k1 : String) (ks : List String) :
    extendPfx "" (k1 :: ks) = extendPfx k1 ks := by
  rw [extendPfx_cons]
  simp

theorem pathChars_ascii {p : List String} (hp : p ≠ []) (hk1 : ∀ k ∈ p, k ≠ "")
    (hkeys : ∀ k ∈ p, ∀ c ∈ k.data, keyChar c = true) :
    ∀ c ∈ (extendPfx "" p).data, c.toNat < 128 := by
  cases p with
  | nil => exact absurd rfl hp
  | cons k1 ks =>
    rw [extendPfx_empty_cons, extendPfx_data (hk1 k1 (by simp))]
    intro c hc
    rcases List.mem_append.mp hc with hm | hm
    · exact (keyChar_split (hkeys k1 (by simp) c hm)).1
    · rcases List.mem_flatMap.mp hm with ⟨k, hk, hin⟩
      rcases List.mem_cons.mp hin with rfl | hin2
      · decide
      · rcases List.mem_append.mp hin2 with hm2 | hm2
        · exact (keyChar_split (hkeys k (by simp [hk]) c hm2)).1
        · simp at hm2; subst hm2; decide

theorem parsePath_path {p : List String} (hp : p ≠ [])
    (hk1 : ∀ k ∈ p, k ≠ "")
    (hkeys : ∀ k ∈ p, ∀ c ∈ k.data, keyChar c = true) :
    parsePath ((extendPfx "" p).data) = p.map String.data := by
  cases p with
  | nil => exact absurd rfl hp
  | cons k1 ks =>
    rw [extendPfx_empty_cons, extendPfx_data (hk1 k1 (by simp))]
    unfold parsePath
    have hh : '[' ∉ k1.data := fun hm => (keyChar_split (hkeys k1 (by simp) _ hm)).2.1 rfl
    rw [splitOnChar_brackets (fun k hk => hkeys k (by simp [hk])) hh]
    show k1.data :: (ks.map fun k => k.data ++ [']']).map
        (fun seg => seg.takeWhile (fun c => c ≠ ']')) = k1.data :: ks.map String.data
    congr 1
    rw [List.map_map]
    apply List.map_congr_left
    intro k hk
    show (k.data ++ [']']).takeWhile (fun c => decide (c ≠ ']')) = k.data
    have hstep := (takeWhile_dropWhile_sep (p := fun c => decide (c ≠ ']')) (K := k.data) [] ']'
      (fun c hc => by
        simp only [decide_eq_true_eq]
        exact (keyChar_split (hkeys k (by simp [hk]) c hc)).2.2)
      (by simp)).1
    simpa using hstep

theorem asciiString_chars {v : String} (h : asciiString v = true) :
    ∀ c ∈ v.data, c.toNat < 128 := by
  intro c hc
  unfold asciiString at h
  have := List.all_eq_true.mp h c hc
  unfold asciiChar at this
  simpa using this

theorem fragToPair_renderFragL {p : List String} {v : String} (hp : p ≠ [])
    (hk1 : ∀ k ∈ p, k ≠ "")
    (hkeys : ∀ k ∈ p, ∀ c ∈ k.data, keyChar c = true)
    (hascii : asciiString v = true) :
    fragToPair (renderFragL "" (p, v)) = (p, v) := by
  unfold fragToPair renderFragL
  have hKpred : ∀ c ∈ percentEncodeL (extendPfx "" p).data,
      (fun c => decide (c ≠ '=')) c = true := by
    intro c hc
    simp only [decide_eq_true_eq]
    exact (percentEncode_mem_ne c hc).2
  obtain ⟨htake, hdrop⟩ := takeWhile_dropWhile_sep (percentEncodeL v.data) '=' hKpred (by simp)
  rw [htake, hdrop]
  show ((parsePath (percentDecodeL (percentEncodeL (extendPfx "" p).data))).map
      (fun seg => String.mk seg),
    String.mk (percentDecodeL (('=' :: percentEncodeL v.data).drop 1))) = (p, v)
  rw [List.drop_succ_cons, List.drop_zero]
  rw [percentDecode_percentEncode (pathChars_ascii hp hk1 hkeys)]
  rw [percentDecode_percentEncode (asciiString_chars hascii)]
  rw [parsePath_path hp hk1 hkeys]
  rw [List.map_map]
  have hmk : p.map (fun k => String.mk k.data) = p := by
    have : ∀ k ∈ p, String.mk k.data = k := fun k _ => rfl
    rw [List.map_congr_left this]
    simp
  show (p.map (fun k => String.mk k.data), String.mk v.data) = (p, v)
  rw [hmk]

/-! ### The leaves of a well-formed value satisfy the decoding conditions -/

theorem leavesFields_mem {fields : List (String × JVal)} {pr : List String × String}
    (h : pr ∈ leavesFields fields) :
    ∃ kv ∈ fields, ∃ pv ∈ leaves kv.2, pr = (kv.1 :: pv.1, pv.2) := by
  induction fields with
  | nil => simp [leavesFields] at h
  | cons kv rest ih =>
    obtain ⟨k, v⟩ := kv
    simp only [leavesFields] at h
    rcases List.mem_append.mp h with hm | hm
    · rcases List.mem_map.mp hm with ⟨pv, hpv, heq⟩
      exact ⟨(k, v), by simp, pv, hpv, heq.symm⟩
    · obtain ⟨kv', hkv', pv, hpv, heq⟩ := ih hm
      exact ⟨kv', by simp [hkv'], pv, hpv, heq⟩

theorem leavesElems_mem {xs : List JVal} {pr : List String × String} :
    ∀ {i : Nat}, pr ∈ leavesElems i xs →
      ∃ j : Nat, ∃ w ∈ xs, ∃ pv ∈ leaves w, pr = (toString j :: pv.1, pv.2) := by
  induction xs with
  | nil => intro i h; simp [leavesElems] at h
  | cons w rest ih =>
    intro i h
    simp only [leavesElems] at h
    rcases List.mem_append.mp h with hm | hm
    · rcases List.mem_map.mp hm with ⟨pv, hpv, heq⟩
      exact ⟨i, w, by simp, pv, hpv, heq.symm⟩
    · obtain ⟨j, w', hw', pv, hpv, heq⟩ := ih hm
      exact ⟨j, w', by simp [hw'], pv, hpv, heq⟩

theorem leaves_good {v : JVal} (h : WFQuery v) :
    ∀ pr ∈ leaves v,
      (∀ k ∈ pr.1, k ≠ "" ∧ ∀ c ∈ k.data, keyChar c = true) ∧ asciiString pr.2 = true := by
  induction h with
  | str s hs =>
    intro pr hpr
    simp only [leaves, List.mem_singleton] at hpr
    subst hpr
    exact ⟨by simp, hs⟩
  | obj fields hne hnodup hkeys hwfs ih =>
    intro pr hpr
    simp only [leaves] at hpr
    obtain ⟨kv, hkv, pv, hpv, heq⟩ := leavesFields_mem hpr
    subst heq
    obtain ⟨hseg, hval⟩ := ih kv hkv pv hpv
    refine ⟨?_, hval⟩
    intro k hk
    rcases List.mem_cons.mp hk with rfl | hm
    · exact ⟨goodKey_ne_empty (hkeys kv hkv), goodKey_chars (hkeys kv hkv)⟩
    · exact hseg k hm
  | arr xs hne hwfs ih =>
    intro pr hpr
    simp only [leaves] at hpr
    obtain ⟨j, w, hw, pv, hpv, heq⟩ := leavesElems_mem hpr
    subst heq
    obtain ⟨hseg, hval⟩ := ih w hw pv hpv
    refine ⟨?_, hval⟩
    intro k hk
    rcases List.mem_cons.mp hk with rfl | hm
    · exact ⟨toString_nat_ne_empty j, toString_nat_keyChars j⟩
    · exact hseg k hm

theorem leaves_path_ne_nil {v : JVal}
    (hcomp : (∃ fields, v = JVal.obj fields) ∨ ∃ xs, v = JVal.arr xs) :
    ∀ pr ∈ leaves v, pr.1 ≠ [] := by
  intro pr hpr
  rcases hcomp with ⟨fields, rfl⟩ | ⟨xs, rfl⟩
  · simp only [leaves] at hpr
    obtain ⟨kv, _, pv, _, heq⟩ := leavesFields_mem hpr
    subst heq
    simp
  · simp only [leaves] at hpr
    obtain ⟨j, w, _, pv, _, heq⟩ := leavesElems_mem hpr
    subst heq
    simp

/-! ### The reference decoder recovers exactly the leaves -/

theorem decode_frags {lvs : List (List String × String)} (hne : lvs ≠ [])
    (hgood : ∀ pr ∈ lvs,
      pr.1 ≠ [] ∧ (∀ k ∈ pr.1, k ≠ "" ∧ ∀ c ∈ k.data, keyChar c = true) ∧
        asciiString pr.2 = true) :
    (splitOnChar '&' ((joinAmp (lvs.map (renderFrag ""))).data)).map fragToPair = lvs := by
  rw [joinAmp_data, List.map_map]
  have hmapdata : lvs.map (String.data ∘ renderFrag "") = lvs.map (renderFragL "") :=
    List.map_congr_left (fun pr _ => renderFrag_data "" pr)
  rw [hmapdata]
  have hfree : ∀ f ∈ lvs.map (renderFragL ""), '&' ∉ f := by
    intro f hf
    rcases List.mem_map.mp hf with ⟨pr, hpr, heq⟩
    subst heq
    intro hm
    unfold renderFragL at hm
    rcases List.mem_append.mp hm with hm2 | hm2
    · exact (percentEncode_mem_ne _ hm2).1 rfl
    · rcases List.mem_cons.mp hm2 with h3 | h3
      · exact absurd h3 (by decide)
      · exact (percentEncode_mem_ne _ h3).1 rfl
  rw [splitOnChar_joinAmpL (fun hq => hne (List.map_eq_nil_iff.mp hq)) hfree]
  rw [List.map_map]
  have hpoint : ∀ pr ∈ lvs, (fragToPair ∘ renderFragL "") pr = pr := by
    intro pr hpr
    obtain ⟨h1, h2, h3⟩ := hgood pr hpr
    show fragToPair (renderFragL "" pr) = pr
    cases pr with
    | mk p v2 =>
      exact fragToPair_renderFragL h1 (fun k hk => (h2 k hk).1) (fun k hk => (h2 k hk).2) h3
  rw [List.map_congr_left hpoint]
  simp

/-! ### Grouping the leaves recovers the object structure -/

theorem groupByHead_cons_path (k : String) (p : List String) (v : String)
    (rest : List (List String × String)) :
    groupByHead ((k :: p, v) :: rest) =
      match groupByHead rest with
      | (k2, sub) :: gs =>
        if k2 = k then (k, (p, v) :: sub) :: gs else (k, [(p, v)]) :: (k2, sub) :: gs
      | [] => [(k, [(p, v)])] := rfl

theorem groupByHead_cons_nil (k : String) (p : List String) (v : String)
    {rest : List (List String × String)} (h : groupByHead rest = []) :
    groupByHead ((k :: p, v) :: rest) = [(k, [(p, v)])] := by
  rw [groupByHead_cons_path, h]

theorem groupByHead_cons_grp (k : String) (p : List String) (v : String)
    {rest : List (List String × String)} {k2 : String}
    {sub : List (List String × String)} {gs : List (String × List (List String × String))}
    (h : groupByHead rest = (k2, sub) :: gs) :
    groupByHead ((k :: p, v) :: rest) =
      if k2 = k then (k, (p, v) :: sub) :: gs else (k, [(p, v)]) :: (k2, sub) :: gs := by
  rw [groupByHead_cons_path, h]

theorem groupByHead_first_key_of {rest : List (List String × String)}
    (hpaths : ∀ pr ∈ rest, pr.1 ≠ []) :
    groupByHead rest = [] ∨
      ∃ k2 sub gs, groupByHead rest = (k2, sub) :: gs ∧
        ∃ pr ∈ rest, ∃ p', pr.1 = k2 :: p' := by
  induction rest with
  | nil => exact Or.inl rfl
  | cons pr rest' ih =>
    obtain ⟨p, v⟩ := pr
    cases p with
    | nil => exact absurd rfl (hpaths ([], v) (by simp))
    | cons k0 p' =>
      right
      rcases hres : groupByHead rest' with _ | ⟨⟨k2, sub⟩, gs⟩
      · exact ⟨k0, [(p', v)], [], groupByHead_cons_nil k0 p' v hres,
          (k0 :: p', v), by simp, p', rfl⟩
      · by_cases hk : k2 = k0
        · subst hk
          exact ⟨k2, (p', v) :: sub, gs, by rw [groupByHead_cons_grp k2 p' v hres, if_pos rfl],
            (k2 :: p', v), by simp, p', rfl⟩
        · exact ⟨k0, [(p', v)], (k2, sub) :: gs,
            by rw [groupByHead_cons_grp k0 p' v hres, if_neg hk],
            (k0 :: p', v), by simp, p', rfl⟩

theorem groupByHead_prefixed {lvs : List (List String × String)} (hlvs : lvs ≠ [])
    (k : String) {rest : List (List String × String)}
    (hrest : ∀ pr ∈ rest, pr.1 ≠ [] ∧ ∀ p', pr.1 ≠ k :: p') :
    groupByHead ((lvs.map (fun pv => (k :: pv.1, pv.2))) ++ rest)
      = (k, lvs) :: groupByHead rest := by
  induction lvs with
  | nil => exact absurd rfl hlvs
  | cons pv lvs' ih =>
    obtain ⟨p0, v0⟩ := pv
    cases lvs' with
    | nil =>
      show groupByHead ((k :: p0, v0) :: rest) = (k, [(p0, v0)]) :: groupByHead rest
      rcases groupByHead_first_key_of (fun pr hpr => (hrest pr hpr).1) with hres | hres
      · rw [groupByHead_cons_nil k p0 v0 hres, hres]
      · obtain ⟨k2, sub, gs, hres, pr, hpr, p', hhead⟩ := hres
        have hk2 : ¬ k2 = k := by
          intro hkk
          subst hkk
          exact (hrest pr hpr).2 p' hhead
        rw [groupByHead_cons_grp k p0 v0 hres, if_neg hk2, hres]
    | cons pv2 lvs'' =>
      show groupByHead ((k :: p0, v0) :: ((pv2 :: lvs'').map (fun pv => (k :: pv.1, pv.2)) ++ rest))
          = (k, (p0, v0) :: pv2 :: lvs'') :: groupByHead rest
      rw [groupByHead_cons_grp k p0 v0 (ih (by simp)), if_pos rfl]

theorem leavesFields_keys_head {fields : List (String × JVal)} {pr : List String × String}
    (h : pr ∈ leavesFields fields) :
    ∃ kv ∈ fields, ∃ p', pr.1 = kv.1 :: p' := by
  obtain ⟨kv, hkv, pv, hpv, heq⟩ := leavesFields_mem h
  exact ⟨kv, hkv, pv.1, by rw [heq]⟩

theorem groupByHead_leavesFields {fields : List (String × JVal)}
    (hwf : ∀ kv ∈ fields, WFQuery kv.2)
    (hnodup : (fields.map Prod.fst).Nodup) :
    groupByHead (leavesFields fields) = fields.map (fun kv => (kv.1, leaves kv.2)) := by
  induction fields with
  | nil => rfl
  | cons kv rest ih =>
    obtain ⟨k, v⟩ := kv
    have hnodup2 : (k :: rest.map Prod.fst).Nodup := hnodup
    have hnd := List.nodup_cons.mp hnodup2
    show groupByHead ((leaves v).map (fun pv => (k :: pv.1, pv.2)) ++ leavesFields rest)
        = (k, leaves v) :: rest.map (fun kv => (kv.1, leaves kv.2))
    rw [groupByHead_prefixed (leaves_ne_nil (hwf (k, v) (by simp))) k ?hrest]
    case hrest =>
      intro pr hpr
      obtain ⟨kv', hkv', p', hhead⟩ := leavesFields_keys_head hpr
      constructor
      · rw [hhead]; simp
      · intro p'' hcontra
        rw [hhead] at hcontra
        have : kv'.1 = k := by
          have := congrArg (fun l => l.headI) hcontra
          simpa using this
        exact hnd.1 (this ▸ List.mem_map_of_mem Prod.fst hkv')
    rw [ih (fun kv hkv => hwf kv (by simp [hkv])) hnd.2]

theorem leavesElems_keys_head {xs : List JVal} {pr : List String × String} :
    ∀ {i : Nat}, pr ∈ leavesElems i xs →
      ∃ j : Nat, i ≤ j ∧ ∃ p', pr.1 = toString j :: p' := by
  induction xs with
  | nil => intro i h; simp [leavesElems] at h
  | cons w rest ih =>
    intro i h
    simp only [leavesElems] at h
    rcases List.mem_append.mp h with hm | hm
    · rcases List.mem_map.mp hm with ⟨pv, hpv, heq⟩
      exact ⟨i, le_refl i, pv.1, by rw [← heq]⟩
    · obtain ⟨j, hj, p', hhead⟩ := ih hm
      exact ⟨j, by omega, p', hhead⟩

theorem groupByHead_leavesElems {xs : List JVal} (hwf : ∀ v ∈ xs, WFQuery v) :
    ∀ i, groupByHead (leavesElems i xs) = indexedLeafGroups i xs := by
  induction xs with
  | nil => intro i; rfl
  | cons v rest ih =>
    intro i
    show groupByHead ((leaves v).map (fun pv => (toString i :: pv.1, pv.2))
        ++ leavesElems (i + 1) rest) = (toString i, leaves v) :: indexedLeafGroups (i + 1) rest
    rw [groupByHead_prefixed (leaves_ne_nil (hwf v (by simp))) (toString i) ?hrest]
    case hrest =>
      intro pr hpr
      obtain ⟨j, hj, p', hhead⟩ := leavesElems_keys_head hpr
      constructor
      · rw [hhead]; simp
      · intro p'' hcontra
        rw [hhead] at hcontra
        have heq : toString j = toString i := by
          have := congrArg (fun l : List String => l.headI) hcontra
          simpa using this
        have := toString_nat_inj heq
        omega
    rw [ih (fun w hw => hwf w (by simp [hw])) (i + 1)]

/-! ### Weights: enough fuel for the rebuild -/

theorem pairsWeight_append (a b : List (List String × String)) :
    pairsWeight (a ++ b) = pairsWeight a + pairsWeight b := by
  unfold pairsWeight
  rw [List.map_append, List.sum_append]

theorem pairsWeight_prefixed (lvs : List (List String × String)) (k : String) :
    pairsWeight (lvs.map (fun pv => (k :: pv.1, pv.2))) = pairsWeight lvs + lvs.length := by
  induction lvs with
  | nil => rfl
  | cons pv rest ih =>
    unfold pairsWeight at ih ⊢
    simp only [List.map_cons, List.sum_cons] at ih ⊢
    rw [ih]
    simp
    omega

theorem pairsWeight_leavesFields_bound {fields : List (String × JVal)}
    (hwf : ∀ kv ∈ fields, WFQuery kv.2) :
    ∀ kv ∈ fields, pairsWeight (leaves kv.2) < pairsWeight (leavesFields fields) := by
  induction fields with
  | nil => intro kv h; simp at h
  | cons kv0 rest ih =>
    intro kv hkv
    obtain ⟨k0, v0⟩ := kv0
    have hlen : (leaves v0).length ≥ 1 := by
      have := leaves_ne_nil (hwf (k0, v0) (by simp))
      cases hl : leaves v0 with
      | nil => exact absurd hl this
      | cons a b => simp
    have hsplit : pairsWeight (leavesFields ((k0, v0) :: rest))
        = pairsWeight (leaves v0) + (leaves v0).length + pairsWeight (leavesFields rest) := by
      show pairsWeight ((leaves v0).map (fun pv => (k0 :: pv.1, pv.2)) ++ leavesFields rest) = _
      rw [pairsWeight_append, pairsWeight_prefixed]
    rcases List.mem_cons.mp hkv with rfl | hm
    · rw [hsplit]
      show pairsWeight (leaves v0) < _
      omega
    · have := ih (fun u hu => hwf u (by simp [hu])) kv hm
      rw [hsplit]
      omega

theorem pairsWeight_leavesElems_bound {xs : List JVal} (hwf : ∀ v ∈ xs, WFQuery v) :
    ∀ i, ∀ w ∈ xs, pairsWeight (leaves w) < pairsWeight (leavesElems i xs) := by
  induction xs with
  | nil => intro i w h; simp at h
  | cons v0 rest ih =>
    intro i w hw
    have hlen : (leaves v0).length ≥ 1 := by
      have := leaves_ne_nil (hwf v0 (by simp))
      cases hl : leaves v0 with
      | nil => exact absurd hl this
      | cons a b => simp
    have hsplit : pairsWeight (leavesElems i (v0 :: rest))
        = pairsWeight (leaves v0) + (leaves v0).length + pairsWeight (leavesElems (i + 1) rest) := by
      show pairsWeight ((leaves v0).map (fun pv => (toString i :: pv.1, pv.2))
          ++ leavesElems (i + 1) rest) = _
      rw [pairsWeight_append, pairsWeight_prefixed]
    rcases List.mem_cons.mp hw with rfl | hm
    · rw [hsplit]; omega
    · have := ih (fun u hu => hwf u (by simp [hu])) (i + 1) w hm
      rw [hsplit]
      omega

/-! ### Rebuilding the leaves recovers the query value -/

theorem unflattenF_succ (fuel : Nat) (pairs : List (List String × String)) :
    unflattenF (fuel + 1) pairs =
      if isIndexSeq (((groupByHead pairs).map
          (fun g => (g.1, rebuildGroupF fuel g.2))).map Prod.fst)
      then .arr (((groupByHead pairs).map (fun g => (g.1, rebuildGroupF fuel g.2))).map Prod.snd)
      else .obj ((groupByHead pairs).map (fun g => (g.1, rebuildGroupF fuel g.2))) := rfl

theorem rebuildGroupF_eq_unflattenF (fuel : Nat) {sub : List (List String × String)}
    (hne : sub ≠ []) (h : ∀ pr ∈ sub, pr.1 ≠ []) :
    rebuildGroupF fuel sub = unflattenF fuel sub := by
  rcases sub with _ | ⟨⟨p, v⟩, rest⟩
  · exact absurd rfl hne
  · rcases p with _ | ⟨k, p'⟩
    · exact absurd rfl (h ([], v) (by simp))
    · rcases rest with _ | ⟨q, rest'⟩ <;> rfl

theorem idxPairs_snd (xs : List JVal) : ∀ i, (idxPairs i xs).map Prod.snd = xs := by
  induction xs with
  | nil => intro i; rfl
  | cons v rest ih =>
    intro i
    simp only [idxPairs, List.map_cons]
    rw [ih]

theorem idxPairs_keys (xs : List JVal) :
    ∀ i, (idxPairs i xs).map Prod.fst
      = (List.range xs.length).map (fun j => toString (i + j)) := by
  induction xs with
  | nil => intro i; rfl
  | cons v rest ih =>
    intro i
    simp only [idxPairs, List.map_cons, List.length_cons]
    rw [List.range_succ_eq_map, List.map_cons, ih (i + 1), List.map_map]
    rw [show toString (i + 0) = toString i from rfl]
    congr 1
    apply List.map_congr_left
    intro j hj
    show toString (i + 1 + j) = toString (i + (j + 1))
    congr 1
    omega

theorem isIndexSeq_idxPairs (xs : List JVal) :
    isIndexSeq ((idxPairs 0 xs).map Prod.fst) = true := by
  unfold isIndexSeq
  rw [decide_eq_true_eq, idxPairs_keys]
  have hlen : ((List.range xs.length).map (fun j => toString (0 + j))).length = xs.length := by
    simp
  rw [hlen]
  apply List.map_congr_left
  intro j hj
  simp

theorem isIndexSeq_goodKeys_false {ks : List String} (hne : ks ≠ [])
    (hgood : ∀ k ∈ ks, goodKey k = true) : isIndexSeq ks = false := by
  unfold isIndexSeq
  rw [decide_eq_false_iff_not]
  intro hcontra
  cases ks with
  | nil => exact absurd rfl hne
  | cons k1 rest =>
    have hlen : (k1 :: rest).length = rest.length + 1 := rfl
    rw [hlen, List.range_succ_eq_map, List.map_cons] at hcontra
    have hk1 : k1 = toString 0 := by
      have := congrArg (fun l : List String => l.headI) hcontra
      simpa using this
    have hg : goodKey (toString 0) = true := hk1 ▸ hgood k1 (by simp)
    rw [show toString (0 : Nat) = "0" from rfl] at hg
    exact absurd hg (by decide)

theorem indexed_items {xs : List JVal} (f : Nat)
    (ihall : ∀ w ∈ xs, rebuildGroupF f (leaves w) = w) :
    ∀ i, (indexedLeafGroups i xs).map (fun g => (g.1, rebuildGroupF f g.2)) = idxPairs i xs := by
  induction xs with
  | nil => intro i; rfl
  | cons v rest ih =>
    intro i
    simp only [indexedLeafGroups, idxPairs, List.map_cons]
    rw [ihall v (by simp), ih (fun w hw => ihall w (by simp [hw])) (i + 1)]

theorem rebuild_leaves {v : JVal} (hwf : WFQuery v) :
    ∀ fuel, pairsWeight (leaves v) < fuel → rebuildGroupF fuel (leaves v) = v := by
  induction hwf with
  | str s hs => intro fuel hfuel; rfl
  | obj fields hne hnodup hkeys hwfs ih =>
    intro fuel hfuel
    have hwfobj : WFQuery (JVal.obj fields) := WFQuery.obj fields hne hnodup hkeys hwfs
    have hpaths := leaves_path_ne_nil (v := JVal.obj fields) (Or.inl ⟨fields, rfl⟩)
    have hlne : leaves (JVal.obj fields) ≠ [] := leaves_ne_nil hwfobj
    rw [rebuildGroupF_eq_unflattenF fuel hlne hpaths]
    cases fuel with
    | zero => omega
    | succ f =>
      rw [unflattenF_succ]
      have hgrp : groupByHead (leaves (JVal.obj fields))
          = fields.map (fun kv => (kv.1, leaves kv.2)) :=
        groupByHead_leavesFields hwfs hnodup
      rw [hgrp]
      have hitems : (fields.map (fun kv => (kv.1, leaves kv.2))).map
          (fun g : String × List (List String × String) => (g.1, rebuildGroupF f g.2))
          = fields := by
        rw [List.map_map]
        have hpt : ∀ kv ∈ fields, ((fun g : String × List (List String × String) =>
            (g.1, rebuildGroupF f g.2)) ∘ (fun kv : String × JVal => (kv.1, leaves kv.2))) kv = kv := by
          intro kv hkv
          show (kv.1, rebuildGroupF f (leaves kv.2)) = kv
          have hb := pairsWeight_leavesFields_bound hwfs kv hkv
          have h2 : pairsWeight (leaves (JVal.obj fields))
              = pairsWeight (leavesFields fields) := rfl
          rw [ih kv hkv f (by omega)]
        rw [List.map_congr_left hpt]
        simp
      rw [hitems]
      have hkne : fields.map Prod.fst ≠ [] := by
        intro hq
        exact hne (List.map_eq_nil_iff.mp hq)
      have hgood : ∀ k ∈ fields.map Prod.fst, goodKey k = true := by
        intro k hk
        rcases List.mem_map.mp hk with ⟨kv, hkv, heq⟩
        exact heq ▸ hkeys kv hkv
      rw [isIndexSeq_goodKeys_false hkne hgood]
      simp
  | arr xs hne hwfs ih =>
    intro fuel hfuel
    have hwfarr : WFQuery (JVal.arr xs) := WFQuery.arr xs hne hwfs
    have hpaths := leaves_path_ne_nil (v := JVal.arr xs) (Or.inr ⟨xs, rfl⟩)
    have hlne : leaves (JVal.arr xs) ≠ [] := leaves_ne_nil hwfarr
    rw [rebuildGroupF_eq_unflattenF fuel hlne hpaths]
    cases fuel with
    | zero => omega
    | succ f =>
      rw [unflattenF_succ]
      have hgrp : groupByHead (leaves (JVal.arr xs)) = indexedLeafGroups 0 xs :=
        groupByHead_leavesElems hwfs 0
      rw [hgrp]
      have hihall : ∀ w ∈ xs, rebuildGroupF f (leaves w) = w := by
        intro w hw
        have hb := pairsWeight_leavesElems_bound hwfs 0 w hw
        have h2 : pairsWeight (leaves (JVal.arr xs)) = pairsWeight (leavesElems 0 xs) := rfl
        exact ih w hw f (by omega)
      rw [indexed_items f hihall 0, isIndexSeq_idxPairs, idxPairs_snd]
      simp

/-! ### The round trip -/

theorem decodeQueryString_roundtrip {fields : List (String × JVal)}
    (hwf : WFQuery (.obj fields)) :
    decodeQueryString (buildQueryString (.obj fields)) = .obj fields := by
  have hrender := buildQuery_renders hwf (Or.inl ⟨fields, rfl⟩) ""
  have hlneq : leaves (JVal.obj fields) ≠ [] := leaves_ne_nil hwf
  have hmapne : (leaves (JVal.obj fields)).map (renderFrag "") ≠ [] :=
    fun h => hlneq (List.map_eq_nil_iff.mp h)
  have hsne : buildQueryString (.obj fields) "" ≠ "" := by
    rw [hrender]
    apply joinAmp_ne_empty hmapne
    intro f hf
    rcases List.mem_map.mp hf with ⟨pr, _, hpr⟩
    exact hpr ▸ renderFrag_ne_empty _ _
  unfold decodeQueryString
  rw [if_neg (by
    intro hq
    apply hsne
    apply string_eq_iff_data.mpr
    simpa using hq)]
  have hgood : ∀ pr ∈ leaves (JVal.obj fields),
      pr.1 ≠ [] ∧ (∀ k ∈ pr.1, k ≠ "" ∧ ∀ c ∈ k.data, keyChar c = true) ∧
        asciiString pr.2 = true := by
    intro pr hpr
    exact ⟨leaves_path_ne_nil (Or.inl ⟨fields, rfl⟩) pr hpr, (leaves_good hwf pr hpr).1,
      (leaves_good hwf pr hpr).2⟩
  have hpairs : (splitOnChar '&' ((buildQueryString (.obj fields) "").data)).map fragToPair
      = leaves (JVal.obj fields) := by
    rw [hrender]
    exact decode_frags hlneq hgood
  rw [hpairs]
  have hreb := rebuild_leaves hwf (pairsWeight (leaves (JVal.obj fields)) + 1) (by omega)
  rw [rebuildGroupF_eq_unflattenF _ hlneq (leaves_path_ne_nil (Or.inl ⟨fields, rfl⟩))] at hreb
  exact hreb

/-!
## The claims
-/

/-- C4 (counterexample): `buildQueryString` percent-encodes the whole
bracketed key, so on `\x7b filters: \x7b title: \x7b $eq: "x" \x7d \x7d \x7d`
it does not return the literal string `filters[title][$eq]=x` claimed by the
spec: brackets and `$` come out as `%5B`, `%5D` and `%24`. -/
theorem claim4_counterexample :
    buildQueryString (.obj [("filters", .obj [("title", .obj [("$eq", .str "x")])])])
      ≠ "filters[title][$eq]=x" := by decide

/-- C4 (amended): the two example serializations hold with the
percent-encoded bracket notation the code actually produces:
`filters%5Btitle%5D%5B%24eq%5D=x` and `populate%5B0%5D=a&populate%5B1%5D=b`. -/
theorem claim4_amended :
    buildQueryString (.obj [("filters", .obj [("title", .obj [("$eq", .str "x")])])])
        = "filters%5Btitle%5D%5B%24eq%5D=x" ∧
      buildQueryString (.obj [("populate", .arr [.str "a", .str "b"])])
        = "populate%5B0%5D=a&populate%5B1%5D=b" :=
  ⟨rfl, rfl⟩

/-- C10: `buildQueryString` silently drops array elements that are `null`
(or empty objects), because `typeof null` is `'object'`, so it recurses into
them and produces an empty fragment that the final filter removes; a `null`
bound directly to a key is emitted as `key=null`. -/
theorem claim10_null_handling :
    buildQueryString (.obj [("a", .arr [JVal.null])]) = "" ∧
      buildQueryString (.obj [("a", .arr [.obj []])]) = "" ∧
      buildQueryString (.obj [("a", JVal.null)]) = "a=null" :=
  ⟨rfl, rfl, rfl⟩

/-- C5 (counterexample): the round-trip law fails on the code as stated for
every query object: `\x7b a: \x7b\x7d \x7d` serializes to the same empty
string as `\x7b\x7d` (the empty-object leaf is dropped entirely), so no
bracket-notation decoder can recover it; in particular the reference
decoder returns the empty object instead. -/
theorem claim5_counterexample :
    buildQueryString (.obj [("a", .obj [])]) = "" ∧
      buildQueryString (.obj []) = "" ∧
      decodeQueryString (buildQueryString (.obj [("a", .obj [])]))
        ≠ .obj [("a", .obj [])] := by
  refine ⟨rfl, rfl, fun h => ?_⟩
  have h2 : JVal.obj ([] : List (String × JVal)) = JVal.obj [("a", JVal.obj [])] := h
  simp at h2

/-- C5 (amended): the round-trip law holds on the class of query objects the
encoding is lossless for: string scalars only, all nested objects and arrays
non-empty, object keys non-empty, ASCII, bracket-free and not starting with
a digit, distinct within each object, and ASCII string values; the empty
query object also round-trips through the empty string. -/
theorem claim5_amended (fields : List (String × JVal))
    (h : fields = [] ∨ WFQuery (.obj fields)) :
    decodeQueryString (buildQueryString (.obj fields)) = .obj fields := by
  rcases h with rfl | hwf
  · rfl
  · exact decodeQueryString_roundtrip hwf

/-- C5 (witness): a concrete query object with nested filters and a populate
array round-trips through the serializer and the reference decoder. -/
theorem claim5_witness :
    decodeQueryString (buildQueryString (.obj
        [("filters", .obj [("title", .obj [("$eq", .str "x")])]),
         ("populate", .arr [.str "a", .str "b"])]))
      = .obj [("filters", .obj [("title", .obj [("$eq", .str "x")])]),
              ("populate", .arr [.str "a", .str "b"])] := by
  apply claim5_amended
  right
  apply WFQuery.obj
  · simp
  · decide
  · intro kv hkv
    rcases List.mem_cons.mp hkv with rfl | hkv
    · decide
    · rcases List.mem_cons.mp hkv with rfl | hkv
      · decide
      · simp at hkv
  · intro kv hkv
    rcases List.mem_cons.mp hkv with rfl | hkv
    · apply WFQuery.obj _ (by simp) (by decide)
      · intro kv2 hkv2
        rcases List.mem_cons.mp hkv2 with rfl | hkv2
        · decide
        · simp at hkv2
      · intro kv2 hkv2
        rcases List.mem_cons.mp hkv2 with rfl | hkv2
        · apply WFQuery.obj _ (by simp) (by decide)
          · intro kv3 hkv3
            rcases List.mem_cons.mp hkv3 with rfl | hkv3
            · decide
            · simp at hkv3
          · intro kv3 hkv3
            rcases List.mem_cons.mp hkv3 with rfl | hkv3
            · exact WFQuery.str "x" (by decide)
            · simp at hkv3
        · simp at hkv2
    · rcases List.mem_cons.mp hkv with rfl | hkv
      · apply WFQuery.arr _ (by simp)
        intro w hw
        rcases List.mem_cons.mp hw with rfl | hw
        · exact WFQuery.str "a" (by decide)
        · rcases List.mem_cons.mp hw with rfl | hw
          · exact WFQuery.str "b" (by decide)
          · simp at hw
      · simp at hkv

/-- C2 (counterexample): when the first page fetch of `replaceMediaUrls`
throws, the executor does not stop and return partial results: the failure
propagates out of the loop (there is no try/catch in the source), and no
list of per-item failures appears in any result. -/
theorem claim2_counterexample :
    replaceMediaUrls (reqFail "fetch failed") "http://old" "http://new" 5
      = some (.error "fetch failed") := rfl

/-- C2 (amended): `replaceMediaUrls` accumulates only the count of
successful updates and every completed run returns either a propagated
error (from a page fetch or an update call) or the object
`\x7b totalUpdated: n \x7d` with no failure list; in particular a failing
first page fetch makes the whole executor throw that error. -/
theorem claim2_amended (req : ReqOracle) (oldBaseUrl newBaseUrl : String) :
    (∀ e fuel, req (mediaPageEndpoint 1) "GET" none = .error e →
      replaceMediaUrls req oldBaseUrl newBaseUrl (fuel + 1) = some (.error e)) ∧
    (∀ page total fuel r,
      replaceMediaUrlsLoop req oldBaseUrl newBaseUrl page total fuel = some r →
      (∃ e, r = .error e) ∨ ∃ n : Nat, r = .ok (.obj [("totalUpdated", .num (n : Int))])) := by
  constructor
  · intro e fuel h
    unfold replaceMediaUrls replaceMediaUrlsLoop
    rw [h]
  · intro page total fuel
    induction fuel generalizing page total with
    | zero => intro r h; simp [replaceMediaUrlsLoop] at h
    | succ fuel ih =>
      intro r h
      unfold replaceMediaUrlsLoop at h
      split at h
      · simp at h
        exact Or.inl ⟨_, h.symm⟩
      · split at h
        · simp at h
          exact Or.inl ⟨_, h.symm⟩
        · split at h
          · simp at h
            exact Or.inr ⟨total, h.symm⟩
          · split at h
            · simp at h
              exact Or.inl ⟨_, h.symm⟩
            · split at h
              · simp at h
                exact Or.inr ⟨_, h.symm⟩
              · exact ih _ _ r h

/-- C2 (witness): at a concrete always-failing oracle the amended claim's
conclusions hold: the run propagates the fetch error and that propagated
result is indeed of error shape. -/
theorem claim2_witness :
    replaceMediaUrls (reqFail "boom") "a" "b" 3 = some (.error "boom") ∧
    ((∃ e, (Except.error "boom" : Except String JVal) = .error e) ∨
      ∃ n : Nat, (Except.error "boom" : Except String JVal)
        = .ok (.obj [("totalUpdated", .num (n : Int))])) := by
  constructor
  · exact (claim2_amended (reqFail "boom") "a" "b").1 "boom" 2 rfl
  · exact (claim2_amended (reqFail "boom") "a" "b").2 1 0 3 (.error "boom")
      ((claim2_amended (reqFail "boom") "a" "b").1 "boom" 2 rfl)

/-- C1 (counterexample): a `tools/call` naming an unregistered tool does not
produce a protocol-level error: the `default: throw` of the `switch` sits
inside the per-tool try/catch, so `handleRequest` returns normally with a
tool-level `isError: true` result instead of throwing. -/
theorem claim1_counterexample :
    handleRequest (execReturn .null)
        (.obj [("method", .str "tools/call"),
               ("params", .obj [("name", .str "nope")]), ("id", .num 1)])
      = .ok (toolCallFailure "Tool not found: nope") := rfl

/-- C1 (amended): for every `tools/call` request whose `params.name` is a
string matching no registered tool, `handleRequest` returns (rather than
throws) the tool-level result
`\x7b content: [\x7b type: 'text', text: 'Error: Tool not found: name' \x7d], isError: true \x7d`,
because the `default` case's throw is caught by the surrounding try/catch. -/
theorem claim1_amended (exec : String → JVal → Except String JVal)
    (request params : JVal) (name : String)
    (hreqn : isNullish request = false)
    (hmethod : jsGet request "method" = .str "tools/call")
    (hparams : jsGet request "params" = params)
    (hpn : isNullish params = false)
    (hname : jsGet params "name" = .str name)
    (hnot : toolNames.contains name = false) :
    handleRequest exec request = .ok (toolCallFailure ("Tool not found: " ++ name)) := by
  unfold handleRequest
  rw [hreqn]
  simp only [Bool.false_eq_true, if_false]
  rw [hmethod, hparams, hname]
  simp only [jsStrEq, runToolSwitch]
  rw [hpn]
  have hnotmem : ¬ name ∈ toolNames := by simpa using hnot
  simp [hnotmem]

/-- C1 (witness): the amended claim at a concrete unregistered tool name. -/
theorem claim1_witness :
    handleRequest (execRaise "never runs")
        (.obj [("method", .str "tools/call"), ("params", .obj [("name", .str "missing_tool")])])
      = .ok (toolCallFailure "Tool not found: missing_tool") :=
  claim1_amended (execRaise "never runs") _ (.obj [("name", .str "missing_tool")])
    "missing_tool" rfl rfl rfl rfl rfl rfl

theorem processLine_parsed (exec : String → JVal → Except String JVal)
    (parse : String → Except String JVal) (line : String) (request : JVal)
    (hline : isBlankLine line = false) (hparse : parse line = .ok request) :
    processLine exec parse line =
      (match (handleRequest exec request).bind (fun result =>
          (jsGetE request "id").map (fun idv =>
            if isUndef idv then [] else [Outgoing.result idv result])) with
      | .ok outs => ⟨outs, []⟩
      | .error msg =>
        match jsGetE request "id" with
        | .ok idv => ⟨if isUndef idv then [] else [.rpcError idv (-32603) msg], []⟩
        | .error e2 => ⟨[], ["Failed to parse request: " ++ e2]⟩) := by
  unfold processLine
  rw [hline]
  simp only [Bool.false_eq_true, if_false]
  rw [hparse]

/-- C3: for a `tools/call` naming a registered tool whose executor throws
with message `m`, `handleRequest` catches the exception and returns the
successful result `\x7b content: [\x7b type: 'text', text: 'Error: ' + m \x7d],
isError: true \x7d`; the transport loop therefore writes a result envelope
(never an error envelope) for such a request. -/
theorem claim3_executor_error (exec : String → JVal → Except String JVal)
    (request params : JVal) (name m : String)
    (hreqn : isNullish request = false)
    (hmethod : jsGet request "method" = .str "tools/call")
    (hparams : jsGet request "params" = params)
    (hpn : isNullish params = false)
    (hname : jsGet params "name" = .str name)
    (hin : toolNames.contains name = true)
    (hexec : exec name (jsGet params "arguments") = .error m) :
    handleRequest exec request = .ok (toolCallFailure m) ∧
    toolCallFailure m
      = .obj [("content", .arr [.obj [("type", .str "text"),
                                      ("text", .str ("Error: " ++ m))]]),
              ("isError", .bool true)] ∧
    ∀ (parse : String → Except String JVal) (line : String) (idv : JVal),
      parse line = .ok request → isBlankLine line = false →
      jsGetE request "id" = .ok idv → isUndef idv = false →
      processLine exec parse line = ⟨[Outgoing.result idv (toolCallFailure m)], []⟩ := by
  have hmain : handleRequest exec request = .ok (toolCallFailure m) := by
    unfold handleRequest
    rw [hreqn]
    simp only [Bool.false_eq_true, if_false]
    rw [hmethod, hparams, hname]
    simp only [jsStrEq, runToolSwitch]
    rw [hpn]
    have hinmem : name ∈ toolNames := by simpa using hin
    simp [hinmem, hexec]
  refine ⟨hmain, rfl, ?_⟩
  intro parse line idv hparse hline hid hundef
  rw [processLine_parsed exec parse line request hline hparse, hmain]
  simp [Except.bind, Except.map, hid, hundef]

/-- C3 (witness): a registered tool (`strapi_whoami`) whose executor throws
`boom` is answered with one result envelope carrying the flagged payload. -/
theorem claim3_witness :
    processLine (execRaise "boom")
        (parseTo (.obj [("method", .str "tools/call"),
                        ("params", .obj [("name", .str "strapi_whoami")]), ("id", .num 1)]))
        "x"
      = ⟨[Outgoing.result (.num 1) (toolCallFailure "boom")], []⟩ :=
  (claim3_executor_error (execRaise "boom")
      (.obj [("method", .str "tools/call"),
             ("params", .obj [("name", .str "strapi_whoami")]), ("id", .num 1)])
      (.obj [("name", .str "strapi_whoami")]) "strapi_whoami" "boom"
      rfl rfl rfl rfl rfl rfl rfl).2.2
    _ "x" (.num 1) rfl rfl rfl rfl

/-- C9 (counterexample): a `tools/call` whose `params` is present but not an
object (here the number `5`) does not raise before the try block:
destructuring a number succeeds with `name` undefined, the `switch` falls to
its `default` throw inside the try, and the caller receives a tool-level
`isError: true` result (`Error: Tool not found: undefined`), not a
protocol-level error envelope. -/
theorem claim9_counterexample :
    handleRequest (execReturn .null)
        (.obj [("method", .str "tools/call"), ("params", .num 5), ("id", .num 1)])
      = .ok (toolCallFailure "Tool not found: undefined") := rfl

/-- C9 (amended): when `params` is absent or `null` (the nullish receivers
on which destructuring throws), `handleRequest` raises before entering the
per-tool try block, and the transport loop surfaces the failure as a
protocol-level error envelope with code `-32603`. -/
theorem claim9_amended (exec : String → JVal → Except String JVal) (request : JVal)
    (hreqn : isNullish request = false)
    (hmethod : jsGet request "method" = .str "tools/call")
    (hpnull : isNullish (jsGet request "params") = true) :
    handleRequest exec request
      = .error (destructureError "name" "params" (jsGet request "params")) ∧
    ∀ (parse : String → Except String JVal) (line : String) (idv : JVal),
      parse line = .ok request → isBlankLine line = false →
      jsGetE request "id" = .ok idv → isUndef idv = false →
      processLine exec parse line
        = ⟨[Outgoing.rpcError idv (-32603)
              (destructureError "name" "params" (jsGet request "params"))], []⟩ := by
  have hmain : handleRequest exec request
      = .error (destructureError "name" "params" (jsGet request "params")) := by
    unfold handleRequest
    rw [hreqn]
    simp only [Bool.false_eq_true, if_false]
    rw [hmethod]
    simp only [jsStrEq]
    simp [hpnull]
  refine ⟨hmain, ?_⟩
  intro parse line idv hparse hline hid hundef
  rw [processLine_parsed exec parse line request hline hparse, hmain]
  simp [Except.bind, Except.map, hid, hundef]

/-- C9 (witness): the amended claim at a concrete request with no `params`
field at all. -/
theorem claim9_witness :
    processLine (execReturn .null)
        (parseTo (.obj [("method", .str "tools/call"), ("id", .num 7)])) "x"
      = ⟨[Outgoing.rpcError (.num 7) (-32603)
            (destructureError "name" "params" JVal.undef)], []⟩ :=
  (claim9_amended (execReturn .null)
      (.obj [("method", .str "tools/call"), ("id", .num 7)]) rfl rfl rfl).2
    _ "x" (.num 7) rfl rfl rfl rfl

/-- C6: for every parseable request line, the transport loop writes exactly
one output line when the parsed envelope's `id` is present and none when it
is absent, whatever the method is and whether dispatch returns or throws
(for a `null` request even the catch block's `id` read throws, reaching the
outer catch, which only logs). -/
theorem claim6_transport (exec : String → JVal → Except String JVal)
    (parse : String → Except String JVal) (line : String) (request : JVal)
    (hline : isBlankLine line = false) (hparse : parse line = .ok request) :
    (processLine exec parse line).outputs.length = if idPresent request then 1 else 0 := by
  rw [processLine_parsed exec parse line request hline hparse]
  cases request with
  | null =>
    have hh : handleRequest exec JVal.null
        = Except.error (destructureError "method" "request" JVal.null) := rfl
    rw [hh]
    simp [Except.bind, jsGetE, idPresent]
  | undef =>
    have hh : handleRequest exec JVal.undef
        = Except.error (destructureError "method" "request" JVal.undef) := rfl
    rw [hh]
    simp [Except.bind, jsGetE, idPresent]
  | bool b =>
    rcases hh : handleRequest exec (JVal.bool b) with e | res <;>
      simp [hh, Except.bind, Except.map, jsGetE, jsGet, idPresent, isUndef]
  | num n =>
    rcases hh : handleRequest exec (JVal.num n) with e | res <;>
      simp [hh, Except.bind, Except.map, jsGetE, jsGet, idPresent, isUndef]
  | str s =>
    rcases hh : handleRequest exec (JVal.str s) with e | res <;>
      simp [hh, Except.bind, Except.map, jsGetE, jsGet, idPresent, isUndef]
  | arr xs =>
    rcases hh : handleRequest exec (JVal.arr xs) with e | res <;>
      simp [hh, Except.bind, Except.map, jsGetE, jsGet, idPresent, isUndef]
  | obj fields =>
    rcases hh : handleRequest exec (JVal.obj fields) with e | res <;>
      rcases hu : isUndef (jsGet (JVal.obj fields) "id") with _ | _ <;>
      simp [hh, Except.bind, Except.map, jsGetE, idPresent, hu]

/-- C6 (witness): a parsed `tools/list` request with `id` present yields
exactly one output line. -/
theorem claim6_witness :
    (processLine (execReturn .null)
        (parseTo (.obj [("method", .str "tools/list"), ("id", .num 1)])) "x").outputs.length
      = if idPresent (.obj [("method", .str "tools/list"), ("id", .num 1)]) then 1 else 0 :=
  claim6_transport (execReturn .null) _ "x"
    (.obj [("method", .str "tools/list"), ("id", .num 1)]) rfl rfl

/-- C7: an input line that is not valid JSON produces no output line and
exactly one log entry, and the loop keeps processing the following lines
unchanged. -/
theorem claim7_malformed_line (exec : String → JVal → Except String JVal)
    (parse : String → Except String JVal) (line e : String) (rest : List String)
    (hline : isBlankLine line = false) (hparse : parse line = .error e) :
    processLine exec parse line = ⟨[], ["Failed to parse request: " ++ e]⟩ ∧
    processLines exec parse (line :: rest)
      = ⟨(processLines exec parse rest).outputs,
         ("Failed to parse request: " ++ e) :: (processLines exec parse rest).logs⟩ := by
  have h1 : processLine exec parse line = ⟨[], ["Failed to parse request: " ++ e]⟩ := by
    unfold processLine
    rw [hline]
    simp only [Bool.false_eq_true, if_false]
    rw [hparse]
  refine ⟨h1, ?_⟩
  show LineEffects.mk ((processLine exec parse line).outputs ++ _)
      ((processLine exec parse line).logs ++ _) = _
  rw [h1]
  simp

/-- C7 (witness): a concrete unparseable line is dropped with one log entry
and the next line is still processed. -/
theorem claim7_witness :
    processLine (execReturn .null) parseFailing "not json"
        = ⟨[], ["Failed to parse request: Unexpected token x in JSON at position 0"]⟩ ∧
    processLines (execReturn .null) parseFailing ["not json"]
      = ⟨(processLines (execReturn .null) parseFailing []).outputs,
         "Failed to parse request: Unexpected token x in JSON at position 0"
           :: (processLines (execReturn .null) parseFailing []).logs⟩ :=
  claim7_malformed_line (execReturn .null) parseFailing "not json" _ [] rfl rfl

theorem strapiRequest_ok (parse : String → Except String JVal) (response : HttpResponse) :
    strapiRequest parse (.ok response) =
      (let data :=
        match parse response.body with
        | .ok d => d
        | .error _ => .obj [("raw", .str response.body)]
      if 200 ≤ response.status && response.status < 300 then .ok data
      else .error ("Strapi API Error (" ++ toString response.status ++ "): "
        ++ jsonStringify data)) := rfl

/-- C8: `strapiRequest` decodes the body as JSON, substituting
`\x7b raw: text \x7d` when decoding fails instead of raising; every response
with a status outside 200..299 makes it throw a message embedding the
status code and the JSON-serialization of the (possibly raw-wrapped) body,
and every success-status response returns the decoded body. -/
theorem claim8_strapiRequest (parse : String → Except String JVal) (response : HttpResponse) :
    (∀ e, parse response.body = .error e →
      200 ≤ response.status → response.status < 300 →
        strapiRequest parse (.ok response) = .ok (.obj [("raw", .str response.body)])) ∧
    (∀ e, parse response.body = .error e →
      ¬(200 ≤ response.status ∧ response.status < 300) →
        strapiRequest parse (.ok response)
          = .error ("Strapi API Error (" ++ toString response.status ++ "): "
              ++ jsonStringify (.obj [("raw", .str response.body)]))) ∧
    (∀ d, parse response.body = .ok d →
      ¬(200 ≤ response.status ∧ response.status < 300) →
        strapiRequest parse (.ok response)
          = .error ("Strapi API Error (" ++ toString response.status ++ "): "
              ++ jsonStringify d)) ∧
    (∀ d, parse response.body = .ok d →
      200 ≤ response.status → response.status < 300 →
        strapiRequest parse (.ok response) = .ok d) := by
  refine ⟨?_, ?_, ?_, ?_⟩
  · intro e hp h1 h2
    rw [strapiRequest_ok]
    simp only [hp]
    rw [if_pos (by simp [h1, h2])]
  · intro e hp hns
    rw [strapiRequest_ok]
    simp only [hp]
    rw [if_neg (by simpa [not_and_or] using hns)]
  · intro d hp hns
    rw [strapiRequest_ok]
    simp only [hp]
    rw [if_neg (by simpa [not_and_or] using hns)]
  · intro d hp h1 h2
    rw [strapiRequest_ok]
    simp only [hp]
    rw [if_pos (by simp [h1, h2])]

/-- C8 (witness): a 404 with a non-JSON body throws with the raw-wrapped
body embedded, and a 200 with a decodable body returns the decoded value. -/
theorem claim8_witness :
    strapiRequest parseFailing (.ok ⟨404, "oops"⟩)
        = .error "Strapi API Error (404): \x7b\"raw\":\"oops\"\x7d" ∧
    strapiRequest (parseTo (.obj [("ok", .bool true)])) (.ok ⟨200, "body"⟩)
        = .ok (.obj [("ok", .bool true)]) := by
  constructor
  · have h := (claim8_strapiRequest parseFailing ⟨404, "oops"⟩).2.1
      "Unexpected token x in JSON at position 0" rfl (by decide)
    rw [h]
    rfl
  · exact (claim8_strapiRequest (parseTo (.obj [("ok", .bool true)])) ⟨200, "body"⟩).2.2.2
      (.obj [("ok", .bool true)]) rfl (by decide) (by decide)

end StrapiMcp
